import Mathlib

/-!
Verification of the CompareSet raster-diff engine.

This file gives a shallow embedding of the pixel-diff pipeline of the
CompareSetViewer sources (coords.ts, regions.ts, diff.ts, renderPdf.ts,
compare.ts, overlayPdf.ts) and proves the testable properties stated in
the specification.  JavaScript numbers are modelled as rationals, pixel
intensities and indices as naturals, `Uint8Array` change masks as
boolean-valued functions on flat indices, and the `Uint8Array` visited
array of the flood fill as a finite set of flat indices.  External
collaborators (pdf.js rasterization, pdf-lib page objects) are modelled
at their interface boundary: a document is a list of pages carrying
physical dimensions, and the raster content produced by the canvas is an
oracle parameter.
-/

/-! ### Definitions: coordinate mapping (coords.ts) -/

/-- A pixel-space bounding box with rational coordinates, the fields of a
`PixelRegion` that `pixelBBoxToPdf` consumes (TS numbers). -/
structure QRegion where
  minX : ℚ
  minY : ℚ
  maxX : ℚ
  maxY : ℚ
deriving DecidableEq

/-- `coords.ts` `Transform`: raster scale (dpi/72) and canvas height in px. -/
structure Transform where
  scale : ℚ
  canvasHeightPx : ℚ
deriving DecidableEq

/-- `coords.ts` `round2`: `Math.round(value * 100) / 100`. -/
def round2 (value : ℚ) : ℚ :=
  (round (value * 100) : ℤ) / 100

/-- `coords.ts` `mmToPt`: `(mm / 25.4) * 72`. -/
def mmToPt (mm : ℚ) : ℚ :=
  mm / 25.4 * 72

/-- `coords.ts` `pixelBBoxToPdf`: returns `[x0, y0, x1, y1]` in document
units, flipping the vertical axis through `canvasHeightPx`. -/
def pixelBBoxToPdf (region : QRegion) (transform : Transform) : ℚ × ℚ × ℚ × ℚ :=
  let x0 := round2 (region.minX / transform.scale)
  let x1 := round2 (region.maxX / transform.scale)
  let y0 := round2 ((transform.canvasHeightPx - region.maxY) / transform.scale)
  let y1 := round2 ((transform.canvasHeightPx - region.minY) / transform.scale)
  (x0, y0, x1, y1)

/-- Modelled from the spec: the pixel-space box construction that
`pixelBoxToDoc` inverts — `x_px = x_doc * scale`,
`y_px = canvasHeightPx - y_doc * scale` applied to a document-space box
`(x0, y0, x1, y1)`.  This is the mapping "back to pixel space through the
same scale and canvas height" of the round-trip property; it is not a
function of the repository, which only materializes it inside its tests. -/
def docBoxToPixel (bbox : ℚ × ℚ × ℚ × ℚ) (transform : Transform) : QRegion :=
  { minX := bbox.1 * transform.scale
  , minY := transform.canvasHeightPx - bbox.2.2.2 * transform.scale
  , maxX := bbox.2.2.1 * transform.scale
  , maxY := transform.canvasHeightPx - bbox.2.1 * transform.scale }

/-! ### Definitions: region classification (regions.ts, types.ts) -/

/-- `types.ts` `DiffKind`: the three change kinds. -/
inductive DiffKind where
  | removed
  | added
  | modified
deriving DecidableEq

/-- `types.ts` `PixelRegion`: a connected component of the change mask with
half-open bounding box and per-source intensity sums. -/
structure PixelRegion where
  area : ℕ
  minX : ℕ
  minY : ℕ
  maxX : ℕ
  maxY : ℕ
  sumOld : ℕ
  sumNew : ℕ
deriving DecidableEq

/-- View of the integer pixel box of a `PixelRegion` as a rational box. -/
def PixelRegion.toQ (r : PixelRegion) : QRegion :=
  { minX := r.minX, minY := r.minY, maxX := r.maxX, maxY := r.maxY }

/-- `regions.ts` `resolveType`: a mean intensity below 245 marks ink
present; ink in old only is removed, in new only is added, otherwise the
region is modified. -/
def resolveType (meanOld meanNew : ℚ) : DiffKind :=
  let activeOld := meanOld < 245
  let activeNew := meanNew < 245
  if activeOld ∧ ¬ activeNew then .removed
  else if ¬ activeOld ∧ activeNew then .added
  else .modified

/-- `regions.ts` `RegionContext`. -/
structure RegionContext where
  pageIndex : ℕ
  gridRows : ℕ
  gridCols : ℕ
  pageWidthPt : ℚ
  pageHeightPt : ℚ
  scale : ℚ
  canvasHeightPx : ℚ
deriving DecidableEq

/-- `types.ts` `DiffRegion`: a classified region in document units. -/
structure DiffRegion where
  pageIndex : ℕ
  gridCell : String
  bboxPdfUnits : ℚ × ℚ × ℚ × ℚ
  type : DiffKind
  areaPx : ℕ
deriving DecidableEq

/-- `regions.ts` `MIN_DIM_PT = mmToPt(0.2)`. -/
def MIN_DIM_PT : ℚ := mmToPt 0.2

/-- `regions.ts` `gridLabel`: the `"row x col"` cell of the box center,
clamped into the grid (`clamp` is inlined as `min (max _ 0) _`). -/
def gridLabel (bbox : ℚ × ℚ × ℚ × ℚ) (widthPt heightPt : ℚ) (cols rows : ℕ) : String :=
  let centerX := (bbox.1 + bbox.2.2.1) / 2
  let centerY := (bbox.2.1 + bbox.2.2.2) / 2
  let cellWidth := widthPt / (cols : ℚ)
  let cellHeight := heightPt / (rows : ℚ)
  let colIndex := min (max ⌊centerX / cellWidth⌋ 0) ((cols : ℤ) - 1) + 1
  let rowIndex := min (max ⌊centerY / cellHeight⌋ 0) ((rows : ℤ) - 1) + 1
  toString rowIndex ++ "x" ++ toString colIndex

/-- `regions.ts` `classifyRegions`: map pixel regions to document space,
drop sub-physical-size boxes, and classify each survivor by its mean
intensities. -/
def classifyRegions (regions : List PixelRegion) (ctx : RegionContext) : List DiffRegion :=
  regions.filterMap fun region =>
    let bboxPdf := pixelBBoxToPdf region.toQ { scale := ctx.scale, canvasHeightPx := ctx.canvasHeightPx }
    let widthPt := bboxPdf.2.2.1 - bboxPdf.1
    let heightPt := bboxPdf.2.2.2 - bboxPdf.2.1
    if widthPt < MIN_DIM_PT ∨ heightPt < MIN_DIM_PT then none
    else
      let meanOld := (region.sumOld : ℚ) / (region.area : ℚ)
      let meanNew := (region.sumNew : ℚ) / (region.area : ℚ)
      some { pageIndex := ctx.pageIndex
           , gridCell := gridLabel bboxPdf ctx.pageWidthPt ctx.pageHeightPt ctx.gridCols ctx.gridRows
           , bboxPdfUnits := bboxPdf
           , type := resolveType meanOld meanNew
           , areaPx := region.area }

/-! ### Definitions: diff engine (diff.ts) -/

/-- `types.ts` `PixelBuffer`: a `width x height` grid of 8-bit intensity
samples; the backing `Uint8ClampedArray` is modelled as a total function
on flat indices (all reads in the sources stay below `width * height`). -/
structure PixelBuffer where
  width : ℕ
  height : ℕ
  data : ℕ → ℕ

/-- The 3x3 structuring element of `dilate`/`erode` as `(dx, dy)` offsets,
enumerated in the `dy`-outer, `dx`-inner order of the TS loops. -/
def offsets9 : List (ℤ × ℤ) :=
  [(-1, -1), (0, -1), (1, -1), (-1, 0), (0, 0), (1, 0), (-1, 1), (0, 1), (1, 1)]

/-- `diff.ts` `dilate`: a result bit is set when any in-frame 8-neighbour
(or the pixel itself) is set; out-of-frame neighbours are skipped. -/
def dilate (w h : ℕ) (mask : ℕ → Bool) : ℕ → Bool := fun idx =>
  if idx < w * h then
    offsets9.any fun o =>
      let nx : ℤ := (idx % w : ℕ) + o.1
      let ny : ℤ := (idx / w : ℕ) + o.2
      if 0 ≤ nx ∧ nx < (w : ℤ) ∧ 0 ≤ ny ∧ ny < (h : ℤ) then mask (ny.toNat * w + nx.toNat)
      else false
  else false

/-- `diff.ts` `erode`: a result bit is set only when every 8-neighbour
(and the pixel itself) lies inside the frame and is set; an out-of-frame
neighbour forces the bit to 0. -/
def erode (w h : ℕ) (mask : ℕ → Bool) : ℕ → Bool := fun idx =>
  if idx < w * h then
    offsets9.all fun o =>
      let nx : ℤ := (idx % w : ℕ) + o.1
      let ny : ℤ := (idx / w : ℕ) + o.2
      if 0 ≤ nx ∧ nx < (w : ℤ) ∧ 0 ≤ ny ∧ ny < (h : ℤ) then mask (ny.toNat * w + nx.toNat)
      else false
  else false

/-- `diff.ts` `morphClose`: dilate then erode. -/
def morphClose (w h : ℕ) (mask : ℕ → Bool) : ℕ → Bool :=
  erode w h (dilate w h mask)

/-- `diff.ts` `morphOpen`: erode then dilate. -/
def morphOpen (w h : ℕ) (mask : ℕ → Bool) : ℕ → Bool :=
  dilate w h (erode w h mask)

/-- The flood-fill neighbour offsets of `findRegions`, in source order. -/
def floodOffsets : List (ℤ × ℤ) :=
  [(1, 0), (-1, 0), (0, 1), (0, -1)]

/-- One iteration of the neighbour loop of the flood fill: bounds check,
mask and visited check, then mark visited and push.  The state is the
visited set together with the stack (head = top of the TS array stack). -/
def visitStep (w h : ℕ) (mask : ℕ → Bool) (cx cy : ℤ)
    (st : Finset ℕ × List ℕ) (o : ℤ × ℤ) : Finset ℕ × List ℕ :=
  let nx := cx + o.1
  let ny := cy + o.2
  if nx < 0 ∨ (w : ℤ) ≤ nx ∨ ny < 0 ∨ (h : ℤ) ≤ ny then st
  else
    let nIndex := ny.toNat * w + nx.toNat
    if mask nIndex = false ∨ nIndex ∈ st.1 then st
    else (insert nIndex st.1, nIndex :: st.2)

/-- The full neighbour loop for the popped index `current`. -/
def pushNeighbors (w h : ℕ) (mask : ℕ → Bool) (current : ℕ)
    (visited : Finset ℕ) (stack : List ℕ) : Finset ℕ × List ℕ :=
  floodOffsets.foldl (visitStep w h mask ((current % w : ℕ) : ℤ) ((current / w : ℕ) : ℤ)) (visited, stack)

/-- The `while (stack.length)` loop of `findRegions`, returning the popped
indices in pop order together with the final visited set.  The loop of the
source terminates because every pushed index is freshly marked visited;
here the same measure (unvisited frame indices plus stack height) bounds a
fuel parameter, and `findRegions` supplies fuel `w * h + 1` which the
measure never exceeds (see `flood_fuel_irrelevant`). -/
def flood (w h : ℕ) (mask : ℕ → Bool) : ℕ → Finset ℕ → List ℕ → List ℕ × Finset ℕ
  | _, visited, [] => ([], visited)
  | 0, visited, _ :: _ => ([], visited)
  | fuel + 1, visited, current :: rest =>
      let st := pushNeighbors w h mask current visited rest
      let res := flood w h mask fuel st.1 st.2
      (current :: res.1, res.2)

/-- The scalar accumulators of the flood loop, recovered as folds over the
pop sequence: `area` counts pops, the box corners fold `min`/`max` from the
seed coordinates, the sums accumulate source intensities (`maxX`/`maxY`
get the `+ 1` of the half-open box from the region literal). -/
def regionOfPops (w : ℕ) (seedX seedY : ℕ) (pops : List ℕ)
    (oldPixels newPixels : PixelBuffer) : PixelRegion :=
  { area := pops.length
  , minX := pops.foldl (fun acc c => min acc (c % w)) seedX
  , minY := pops.foldl (fun acc c => min acc (c / w)) seedY
  , maxX := pops.foldl (fun acc c => max acc (c % w)) seedX + 1
  , maxY := pops.foldl (fun acc c => max acc (c / w)) seedY + 1
  , sumOld := pops.foldl (fun acc c => acc + oldPixels.data c) 0
  , sumNew := pops.foldl (fun acc c => acc + newPixels.data c) 0 }

/-- The flat indices `y * w + x` scanned by the two nested seed loops of
`findRegions`, in loop order. -/
def seedIndices (w h : ℕ) : List ℕ :=
  (List.range h).flatMap fun y => (List.range w).map fun x => y * w + x

/-- One iteration of the seed scan of `findRegions`: skip clear or visited
pixels, otherwise mark the seed visited, flood its component, and keep the
region when its area reaches `minArea`. -/
def seedStep (w h : ℕ) (mask : ℕ → Bool) (oldPixels newPixels : PixelBuffer) (minArea : ℚ)
    (st : Finset ℕ × List PixelRegion) (index : ℕ) : Finset ℕ × List PixelRegion :=
  if mask index = false ∨ index ∈ st.1 then st
  else
    let fl := flood w h mask (w * h + 1) (insert index st.1) [index]
    let region := regionOfPops w (index % w) (index / w) fl.1 oldPixels newPixels
    (fl.2, if (region.area : ℚ) ≥ minArea then st.2 ++ [region] else st.2)

/-- `diff.ts` `findRegions`: 4-connected flood-fill labeling over the set
mask bits with an arena-style visited set, discarding small components. -/
def findRegions (mask : ℕ → Bool) (w h : ℕ)
    (oldPixels newPixels : PixelBuffer) (minArea : ℚ) : List PixelRegion :=
  ((seedIndices w h).foldl (seedStep w h mask oldPixels newPixels minArea) (∅, [])).2

/-- `diff.ts` `DiffComputation`. -/
structure DiffComputation where
  regions : List PixelRegion
  mask : ℕ → Bool

/-- `diff.ts` `computeDiff`: dimension guard, absolute-difference change
mask, morphological close then open, then region extraction.  The thrown
dimension-mismatch `Error` is modelled as the `Except.error` branch. -/
def computeDiff (oldPixels newPixels : PixelBuffer) (threshold : ℚ) (minArea : ℚ) :
    Except String DiffComputation :=
  if oldPixels.width ≠ newPixels.width ∨ oldPixels.height ≠ newPixels.height then
    .error "Pixel buffers must have matching dimensions."
  else
    let w := oldPixels.width
    let h := oldPixels.height
    let mask : ℕ → Bool := fun i =>
      if i < w * h then
        decide (((oldPixels.data i : ℤ) - (newPixels.data i : ℤ)).natAbs > threshold)
      else false
    let closed := morphClose w h mask
    let opened := morphOpen w h closed
    .ok { regions := findRegions opened w h oldPixels newPixels minArea, mask := opened }

/-! ### Definitions: page pipeline (renderPdf.ts, compare.ts, overlayPdf.ts)

The pdf.js / pdf-lib collaborators are modelled at their interface: a
loaded document is a list of pages carrying physical dimensions in
document points; `getViewport({scale})` yields `widthPt * scale` pixels;
the canvas raster content is an oracle parameter `rasterize` (the claims
only depend on the dimensions and on the blank branches, which are fully
concrete). -/

/-- A page of a loaded PDF document: its media box in document points. -/
structure PdfPage where
  widthPt : ℚ
  heightPt : ℚ
deriving DecidableEq

/-- pdf.js `page.getViewport({scale})` width in pixels. -/
def viewportWidthPx (page : PdfPage) (scale : ℚ) : ℚ := page.widthPt * scale

/-- pdf.js `page.getViewport({scale})` height in pixels. -/
def viewportHeightPx (page : PdfPage) (scale : ℚ) : ℚ := page.heightPt * scale

/-- `renderPdf.ts` `blankBuffer`: an all-white buffer (`fill(255)`). -/
def blankBuffer (width height : ℕ) : PixelBuffer :=
  { width := width, height := height, data := fun _ => 255 }

/-- The result record of `renderPdf.ts` `renderPage`. -/
structure RenderedPage where
  pixels : PixelBuffer
  widthPt : ℚ
  heightPt : ℚ

/-- `renderPdf.ts` `renderPage`: a missing document or an out-of-range page
index yields a blank white buffer of the target canvas size; otherwise the
page is rasterized into a `targetWidth x targetHeight` grayscale buffer
(content abstracted by `rasterize`) and the physical size is reported as
`viewport / scale`. -/
def renderPage (rasterize : PdfPage → ℚ → ℕ → ℕ → ℕ → ℕ)
    (doc : Option (List PdfPage)) (pageIndex : ℕ) (scale : ℚ)
    (targetWidth targetHeight : ℕ) : RenderedPage :=
  match doc with
  | none =>
      { pixels := blankBuffer targetWidth targetHeight
      , widthPt := (targetWidth : ℚ) / scale
      , heightPt := (targetHeight : ℚ) / scale }
  | some pages =>
      if pages.length < pageIndex + 1 then
        { pixels := blankBuffer targetWidth targetHeight
        , widthPt := (targetWidth : ℚ) / scale
        , heightPt := (targetHeight : ℚ) / scale }
      else
        let page := pages.getD pageIndex { widthPt := 0, heightPt := 0 }
        { pixels := { width := targetWidth, height := targetHeight
                    , data := rasterize page scale targetWidth targetHeight }
        , widthPt := viewportWidthPx page scale / scale
        , heightPt := viewportHeightPx page scale / scale }

/-- `compare.ts` `renderPageDimension`: `(0, 0)` for a missing page, else
the ceiled viewport size in pixels. -/
def renderPageDimension (doc : Option (List PdfPage)) (index : ℕ) (scale : ℚ) : ℕ × ℕ :=
  match doc with
  | none => (0, 0)
  | some pages =>
      if pages.length < index + 1 then (0, 0)
      else
        let page := pages.getD index { widthPt := 0, heightPt := 0 }
        (⌈viewportWidthPx page scale⌉.toNat, ⌈viewportHeightPx page scale⌉.toNat)

/-- `types.ts` `CompareConfig` (the fields the core consumes). -/
structure CompareConfig where
  dpi : ℚ
  diffThreshold : ℚ
  minRegionArea : ℚ
  gridRows : ℕ
  gridCols : ℕ
deriving DecidableEq

/-- `types.ts` `PageCompareResult`. -/
structure PageCompareResult where
  pageIndex : ℕ
  canvasWidthPx : ℕ
  canvasHeightPx : ℕ
  pageWidthPt : ℚ
  pageHeightPt : ℚ
  scale : ℚ
  oldPixels : PixelBuffer
  newPixels : PixelBuffer
  regions : List DiffRegion

/-- A page of the assembled overlay document: either a page copied from a
source document (`copiedFrom = some index`) or a blank page added with
fallback dimensions (`copiedFrom = none`), plus the vector rectangles
drawn onto it. -/
structure OutPage where
  widthPt : ℚ
  heightPt : ℚ
  copiedFrom : Option ℕ
  drawn : List DiffRegion
deriving DecidableEq

/-- `overlayPdf.ts` `importPage`: copy the indexed source page when it
exists, otherwise add a blank page of the fallback dimensions. -/
def importPage (source : List PdfPage) (index : ℕ)
    (fallbackWidth fallbackHeight : ℚ) : OutPage :=
  if index < source.length then
    let page := source.getD index { widthPt := 0, heightPt := 0 }
    { widthPt := page.widthPt, heightPt := page.heightPt, copiedFrom := some index, drawn := [] }
  else
    { widthPt := fallbackWidth, heightPt := fallbackHeight, copiedFrom := none, drawn := [] }

/-- The effect of the `drawRegion` calls on one output page (rectangle and
label geometry are carried by the `DiffRegion` itself; colors and fonts
are presentation-only and outside the model). -/
def drawRegionsOn (page : OutPage) (regions : List DiffRegion) : OutPage :=
  { page with drawn := page.drawn ++ regions }

/-- `overlayPdf.ts` `buildOverlayPdf`: one blank letter page when there is
nothing to compare, otherwise, per compared pair, the old page carrying
the non-added regions followed by the new page carrying the non-removed
regions. -/
def buildOverlayPdf (pages : List PageCompareResult)
    (oldDoc newDoc : List PdfPage) : List OutPage :=
  if pages.length = 0 then
    [{ widthPt := 612, heightPt := 792, copiedFrom := none, drawn := [] }]
  else
    pages.flatMap fun page =>
      let oldPage := importPage oldDoc page.pageIndex page.pageWidthPt page.pageHeightPt
      let newPage := importPage newDoc page.pageIndex page.pageWidthPt page.pageHeightPt
      [ drawRegionsOn oldPage (page.regions.filter fun r => r.type ≠ DiffKind.added)
      , drawRegionsOn newPage (page.regions.filter fun r => r.type ≠ DiffKind.removed) ]

/-- The body of the per-page loop of `compare.ts` `comparePdfs`: render
both sides onto the union canvas, diff, classify.  A thrown
dimension-mismatch error propagates through `Except`. -/
def comparePage (rasterize : PdfPage → ℚ → ℕ → ℕ → ℕ → ℕ) (config : CompareConfig)
    (oldDoc newDoc : Option (List PdfPage)) (index : ℕ) :
    Except String PageCompareResult :=
  let scale := config.dpi / 72
  let oldDim := renderPageDimension oldDoc index scale
  let newDim := renderPageDimension newDoc index scale
  let canvasWidth := max 1 (max oldDim.1 newDim.1)
  let canvasHeight := max 1 (max oldDim.2 newDim.2)
  let oldRender := renderPage rasterize oldDoc index scale canvasWidth canvasHeight
  let newRender := renderPage rasterize newDoc index scale canvasWidth canvasHeight
  let pageWidthPt := max oldRender.widthPt newRender.widthPt
  let pageHeightPt := max oldRender.heightPt newRender.heightPt
  (computeDiff oldRender.pixels newRender.pixels config.diffThreshold config.minRegionArea).map
    fun diff =>
      { pageIndex := index
      , canvasWidthPx := canvasWidth
      , canvasHeightPx := canvasHeight
      , pageWidthPt := pageWidthPt
      , pageHeightPt := pageHeightPt
      , scale := scale
      , oldPixels := oldRender.pixels
      , newPixels := newRender.pixels
      , regions := classifyRegions diff.regions
          { pageIndex := index, gridRows := config.gridRows, gridCols := config.gridCols
          , pageWidthPt := pageWidthPt, pageHeightPt := pageHeightPt
          , scale := scale, canvasHeightPx := (canvasHeight : ℚ) } }

/-- `types.ts` `CompareResult` (the output PDF kept as its page list). -/
structure CompareResultModel where
  pages : List PageCompareResult
  outputPdf : Option (List OutPage)
  diffCount : ℕ
  status : String

/-- `compare.ts` `comparePdfs`: process `max` of the two page counts —
rendering a blank side where a page is missing — then assemble the overlay
document; any per-page failure aborts the whole run with an error status. -/
def comparePdfs (rasterize : PdfPage → ℚ → ℕ → ℕ → ℕ → ℕ) (config : CompareConfig)
    (oldDoc newDoc : Option (List PdfPage)) : CompareResultModel :=
  let pageCount := max (oldDoc.elim 0 List.length) (newDoc.elim 0 List.length)
  match (List.range pageCount).mapM (comparePage rasterize config oldDoc newDoc) with
  | .error message =>
      { pages := [], outputPdf := none, diffCount := 0, status := "Error: " ++ message }
  | .ok pages =>
      { pages := pages
      , outputPdf := some (buildOverlayPdf pages (oldDoc.getD []) (newDoc.getD []))
      , diffCount := (pages.map fun p => p.regions.length).sum
      , status := "Completed" }

/-! ### Definitions: concrete fixtures for page-padding evaluation -/

/-- A 1pt-square page used to exercise the pipeline on a 1x1 canvas. -/
def wPage : PdfPage := { widthPt := 1, heightPt := 1 }

/-- A rasterizer oracle painting every sample white. -/
def wRaster : PdfPage → ℚ → ℕ → ℕ → ℕ → ℕ := fun _ _ _ _ _ => 255

/-- A small configuration at 72 dpi. -/
def wConfig : CompareConfig :=
  { dpi := 72, diffThreshold := 10, minRegionArea := 1, gridRows := 1, gridCols := 1 }

/-! ### Definitions: coordinate-space view of the morphological operators

`dilate` and `erode` walk flat indices; for reasoning, the same operators
are stated on sets of integer coordinate pairs `(x, y)` restricted to the
`w x h` frame, with the 3x3 structuring element expressed through the
Chebyshev-distance-one adjacency.  `maskSet` relates the two views. -/

/-- The pixel frame: `0 ≤ x < w`, `0 ≤ y < h`. -/
def inFrame (w h : ℕ) (p : ℤ × ℤ) : Prop :=
  0 ≤ p.1 ∧ p.1 < (w : ℤ) ∧ 0 ≤ p.2 ∧ p.2 < (h : ℤ)

/-- 3x3 structuring-element adjacency (includes the center). -/
def adj (p q : ℤ × ℤ) : Prop :=
  |p.1 - q.1| ≤ 1 ∧ |p.2 - q.2| ≤ 1

/-- Coordinate-space dilation with frame-clipped structuring element. -/
def dilSet (w h : ℕ) (S : Set (ℤ × ℤ)) : Set (ℤ × ℤ) :=
  {p | inFrame w h p ∧ ∃ q, inFrame w h q ∧ adj p q ∧ q ∈ S}

/-- Coordinate-space erosion; a neighbour outside the frame clears the
bit, exactly as in `erode`. -/
def eroSet (w h : ℕ) (S : Set (ℤ × ℤ)) : Set (ℤ × ℤ) :=
  {p | inFrame w h p ∧ ∀ q, adj p q → inFrame w h q ∧ q ∈ S}

/-- The set of coordinates whose flat index is set in a mask. -/
def maskSet (w h : ℕ) (m : ℕ → Bool) : Set (ℤ × ℤ) :=
  {p | inFrame w h p ∧ m (p.2.toNat * w + p.1.toNat) = true}

/-- One Chebyshev step from `b` toward `a`. -/
def stepToward (a b : ℤ) : ℤ :=
  if b < a then b + 1 else if a < b then b - 1 else b

/-- A concrete 4x3 change mask used to exercise the region extractor: a
lone pixel at (1,0) and an L-shaped component seeded at (3,0) that hooks
left along the bottom row to (0,2). -/
def cmask : ℕ → Bool := fun idx =>
  decide (idx = 1 ∨ idx = 3 ∨ idx = 7 ∨ idx = 8 ∨ idx = 9 ∨ idx = 10 ∨ idx = 11)

/-- The lone-pixel component that `findRegions` extracts first from
`cmask` over all-white sources. -/
def sampleRegionA : PixelRegion :=
  { area := 1, minX := 1, minY := 0, maxX := 2, maxY := 1, sumOld := 255, sumNew := 255 }

/-- The L-shaped component that `findRegions` extracts second from
`cmask` over all-white sources. -/
def sampleRegionB : PixelRegion :=
  { area := 6, minX := 0, minY := 0, maxX := 4, maxY := 3, sumOld := 1530, sumNew := 1530 }

/-! ### Helper lemmas: rounding and coordinates -/

lemma round2_idem (q : ℚ) : round2 (round2 q) = round2 q := by
  unfold round2
  have h : ((round (q * 100) : ℤ) : ℚ) / 100 * 100 = ((round (q * 100) : ℤ) : ℚ) :=
    div_mul_cancel₀ _ (by norm_num)
  rw [h, round_intCast]

/-! ### Claim theorems: classification and coordinate mapping -/

/-- C4: `pixelBBoxToPdf` is a left inverse of the pixel-space box
construction up to rounding — for every pixel region and positive scale,
mapping the pixel box to document units, back to pixel space through the
same scale and canvas height, and forward again reproduces every
coordinate of the document-space box within 0.01 document units. -/
theorem pixelBBoxToPdf_roundTrip (r : QRegion) (t : Transform) (hs : 0 < t.scale) :
    |(pixelBBoxToPdf (docBoxToPixel (pixelBBoxToPdf r t) t) t).1 -
        (pixelBBoxToPdf r t).1| ≤ 1 / 100 ∧
    |(pixelBBoxToPdf (docBoxToPixel (pixelBBoxToPdf r t) t) t).2.1 -
        (pixelBBoxToPdf r t).2.1| ≤ 1 / 100 ∧
    |(pixelBBoxToPdf (docBoxToPixel (pixelBBoxToPdf r t) t) t).2.2.1 -
        (pixelBBoxToPdf r t).2.2.1| ≤ 1 / 100 ∧
    |(pixelBBoxToPdf (docBoxToPixel (pixelBBoxToPdf r t) t) t).2.2.2 -
        (pixelBBoxToPdf r t).2.2.2| ≤ 1 / 100 := by
  have hne : t.scale ≠ 0 := ne_of_gt hs
  simp only [pixelBBoxToPdf, docBoxToPixel]
  simp only [sub_sub_cancel, mul_div_cancel_right₀ _ hne, round2_idem, sub_self, abs_zero]
  norm_num

/-- Witness for C4 at a concrete region and transform. -/
theorem pixelBBoxToPdf_roundTrip_witness :
    |(pixelBBoxToPdf (docBoxToPixel (pixelBBoxToPdf { minX := 1, minY := 2, maxX := 3, maxY := 4 } { scale := 2, canvasHeightPx := 100 }) { scale := 2, canvasHeightPx := 100 }) { scale := 2, canvasHeightPx := 100 }).1 -
        (pixelBBoxToPdf { minX := 1, minY := 2, maxX := 3, maxY := 4 } { scale := 2, canvasHeightPx := 100 }).1| ≤ 1 / 100 ∧
    |(pixelBBoxToPdf (docBoxToPixel (pixelBBoxToPdf { minX := 1, minY := 2, maxX := 3, maxY := 4 } { scale := 2, canvasHeightPx := 100 }) { scale := 2, canvasHeightPx := 100 }) { scale := 2, canvasHeightPx := 100 }).2.1 -
        (pixelBBoxToPdf { minX := 1, minY := 2, maxX := 3, maxY := 4 } { scale := 2, canvasHeightPx := 100 }).2.1| ≤ 1 / 100 ∧
    |(pixelBBoxToPdf (docBoxToPixel (pixelBBoxToPdf { minX := 1, minY := 2, maxX := 3, maxY := 4 } { scale := 2, canvasHeightPx := 100 }) { scale := 2, canvasHeightPx := 100 }) { scale := 2, canvasHeightPx := 100 }).2.2.1 -
        (pixelBBoxToPdf { minX := 1, minY := 2, maxX := 3, maxY := 4 } { scale := 2, canvasHeightPx := 100 }).2.2.1| ≤ 1 / 100 ∧
    |(pixelBBoxToPdf (docBoxToPixel (pixelBBoxToPdf { minX := 1, minY := 2, maxX := 3, maxY := 4 } { scale := 2, canvasHeightPx := 100 }) { scale := 2, canvasHeightPx := 100 }) { scale := 2, canvasHeightPx := 100 }).2.2.2 -
        (pixelBBoxToPdf { minX := 1, minY := 2, maxX := 3, maxY := 4 } { scale := 2, canvasHeightPx := 100 }).2.2.2| ≤ 1 / 100 :=
  pixelBBoxToPdf_roundTrip { minX := 1, minY := 2, maxX := 3, maxY := 4 }
    { scale := 2, canvasHeightPx := 100 } (by norm_num)

/-- C3: for a region of positive area, classification forms the mean
intensities `sumOld / area` and `sumNew / area`, reads a mean below 245 as
ink present, and resolves ink in old only to removed, ink in new only to
added, and ink on both sides to modified; `classifyRegions` assigns
exactly this kind to every region it keeps. -/
theorem resolveType_mean_rule (r : PixelRegion) (h : 0 < r.area) :
    (((r.sumOld : ℚ) / (r.area : ℚ) < 245 → ¬ ((r.sumNew : ℚ) / (r.area : ℚ) < 245) →
        resolveType ((r.sumOld : ℚ) / (r.area : ℚ)) ((r.sumNew : ℚ) / (r.area : ℚ)) =
          DiffKind.removed) ∧
      (¬ ((r.sumOld : ℚ) / (r.area : ℚ) < 245) → ((r.sumNew : ℚ) / (r.area : ℚ) < 245) →
        resolveType ((r.sumOld : ℚ) / (r.area : ℚ)) ((r.sumNew : ℚ) / (r.area : ℚ)) =
          DiffKind.added) ∧
      (((r.sumOld : ℚ) / (r.area : ℚ) < 245) → ((r.sumNew : ℚ) / (r.area : ℚ) < 245) →
        resolveType ((r.sumOld : ℚ) / (r.area : ℚ)) ((r.sumNew : ℚ) / (r.area : ℚ)) =
          DiffKind.modified)) ∧
    ∀ ctx : RegionContext, ∀ d ∈ classifyRegions [r] ctx,
      d.type = resolveType ((r.sumOld : ℚ) / (r.area : ℚ)) ((r.sumNew : ℚ) / (r.area : ℚ)) := by
  constructor
  · refine ⟨fun ho hn => ?_, fun ho hn => ?_, fun ho hn => ?_⟩ <;> simp [resolveType, ho, hn]
  · intro ctx d hd
    simp only [classifyRegions, List.mem_filterMap, List.mem_singleton] at hd
    obtain ⟨a, rfl, ha⟩ := hd
    split at ha
    · exact absurd ha (by simp)
    · rw [Option.some.injEq] at ha
      subst ha
      rfl

/-- Witness for C3 at a one-pixel region with blank old side and inked new
side (mean intensities 255 and 0), classified as added. -/
theorem resolveType_mean_rule_witness :
    resolveType (((255 : ℕ) : ℚ) / ((1 : ℕ) : ℚ)) (((0 : ℕ) : ℚ) / ((1 : ℕ) : ℚ)) =
      DiffKind.added :=
  ((resolveType_mean_rule
      { area := 1, minX := 0, minY := 0, maxX := 1, maxY := 1, sumOld := 255, sumNew := 0 }
      (by decide)).1.2.1 (by norm_num) (by norm_num))

/-- C7: region classification is symmetric under swapping the two sources:
added under `(meanOld, meanNew)` becomes removed under the swapped
arguments, and conversely. -/
theorem resolveType_swap (meanOld meanNew : ℚ) :
    (resolveType meanOld meanNew = DiffKind.added →
      resolveType meanNew meanOld = DiffKind.removed) ∧
    (resolveType meanOld meanNew = DiffKind.removed →
      resolveType meanNew meanOld = DiffKind.added) := by
  by_cases ho : meanOld < 245 <;> by_cases hn : meanNew < 245 <;>
    simp [resolveType, ho, hn]

/-- Witness for C7: (250, 200) classifies as added, so the swapped pair
classifies as removed. -/
theorem resolveType_swap_witness :
    resolveType (200 : ℚ) (250 : ℚ) = DiffKind.removed :=
  (resolveType_swap 250 200).1 (by norm_num [resolveType])

/-- C10: when the mean intensity is at least 245 in both sources, the
region is not rejected: classification still returns a kind, and that kind
is modified. -/
theorem resolveType_blank_modified (meanOld meanNew : ℚ)
    (ho : 245 ≤ meanOld) (hn : 245 ≤ meanNew) :
    resolveType meanOld meanNew = DiffKind.modified := by
  simp [resolveType, not_lt.mpr ho, not_lt.mpr hn]

/-- Witness for C10 at means 245 and 255. -/
theorem resolveType_blank_modified_witness :
    resolveType (245 : ℚ) (255 : ℚ) = DiffKind.modified :=
  resolveType_blank_modified 245 255 (by norm_num) (by norm_num)

/-- C2: `computeDiff` raises the dimension-mismatch error exactly when the
buffers differ in width or height, and otherwise returns a diff result (a
mask and a region list). -/
theorem computeDiff_dimension_guard (oldP newP : PixelBuffer) (threshold minArea : ℚ) :
    ((∃ e, computeDiff oldP newP threshold minArea = Except.error e) ↔
      (oldP.width ≠ newP.width ∨ oldP.height ≠ newP.height)) ∧
    (oldP.width = newP.width → oldP.height = newP.height →
      ∃ d, computeDiff oldP newP threshold minArea = Except.ok d) := by
  by_cases hc : oldP.width ≠ newP.width ∨ oldP.height ≠ newP.height
  · constructor
    · simp [computeDiff, hc]
    · intro h1 h2
      rcases hc with hc | hc
      · exact absurd h1 hc
      · exact absurd h2 hc
  · constructor
    · simp [computeDiff, hc]
    · intro _ _
      exact ⟨_, by unfold computeDiff; rw [if_neg hc]⟩

/-- Witness for C2: equal-dimension buffers produce a result. -/
theorem computeDiff_dimension_guard_witness :
    ∃ d, computeDiff (blankBuffer 2 2) (blankBuffer 2 2) 10 1 = Except.ok d :=
  (computeDiff_dimension_guard (blankBuffer 2 2) (blankBuffer 2 2) 10 1).2 rfl rfl

/-! ### Helper lemmas: the all-clear mask stays clear through the pipeline -/

lemma dilate_of_false {w h : ℕ} {m : ℕ → Bool} (hm : ∀ i, m i = false) :
    ∀ idx, dilate w h m idx = false := by
  intro idx
  unfold dilate
  split
  · simp [offsets9, hm]
  · rfl

lemma erode_of_false {w h : ℕ} {m : ℕ → Bool} (hm : ∀ i, m i = false) :
    ∀ idx, erode w h m idx = false := by
  intro idx
  unfold erode
  split
  · simp [offsets9, hm]
  · rfl

lemma seedStep_of_false {w h : ℕ} {mask : ℕ → Bool} (hm : ∀ i, mask i = false)
    (oldP newP : PixelBuffer) (minArea : ℚ) (st : Finset ℕ × List PixelRegion) (i : ℕ) :
    seedStep w h mask oldP newP minArea st i = st := by
  unfold seedStep
  rw [if_pos (Or.inl (hm i))]

lemma findRegions_of_false {w h : ℕ} {mask : ℕ → Bool} (hm : ∀ i, mask i = false)
    (oldP newP : PixelBuffer) (minArea : ℚ) :
    findRegions mask w h oldP newP minArea = [] := by
  unfold findRegions
  suffices hfold : ∀ (l : List ℕ) (st : Finset ℕ × List PixelRegion),
      l.foldl (seedStep w h mask oldP newP minArea) st = st by
    rw [hfold]
  intro l
  induction l with
  | nil => intro st; rfl
  | cons x xs ih =>
      intro st
      rw [List.foldl_cons, seedStep_of_false hm, ih]

/-- C1: diffing a pixel buffer against itself with a nonnegative threshold
yields zero regions, for every minimum-area setting. -/
theorem computeDiff_self_empty (a : PixelBuffer) (threshold minArea : ℚ)
    (ht : 0 ≤ threshold) :
    Except.map DiffComputation.regions (computeDiff a a threshold minArea) =
      Except.ok [] := by
  unfold computeDiff
  rw [if_neg (by simp)]
  have hmask : ∀ i, (fun i =>
      if i < a.width * a.height then
        decide (((a.data i : ℤ) - (a.data i : ℤ)).natAbs > threshold)
      else false) i = false := by
    intro i
    simp only [sub_self, Int.natAbs_zero, Nat.cast_zero, gt_iff_lt,
      decide_eq_false_iff_not, not_lt, ite_eq_right_iff]
    intro _
    exact ht
  have hchain : ∀ i, morphOpen a.width a.height (morphClose a.width a.height (fun i =>
      if i < a.width * a.height then
        decide (((a.data i : ℤ) - (a.data i : ℤ)).natAbs > threshold)
      else false)) i = false := by
    intro i
    unfold morphOpen morphClose
    exact dilate_of_false (erode_of_false (erode_of_false (dilate_of_false hmask))) i
  show Except.map DiffComputation.regions (Except.ok
      { regions := findRegions (morphOpen a.width a.height (morphClose a.width a.height (fun i =>
          if i < a.width * a.height then
            decide (((a.data i : ℤ) - (a.data i : ℤ)).natAbs > threshold)
          else false))) a.width a.height a a minArea
      , mask := morphOpen a.width a.height (morphClose a.width a.height (fun i =>
          if i < a.width * a.height then
            decide (((a.data i : ℤ) - (a.data i : ℤ)).natAbs > threshold)
          else false)) }) = Except.ok []
  rw [show Except.map DiffComputation.regions (Except.ok
      { regions := findRegions (morphOpen a.width a.height (morphClose a.width a.height (fun i =>
          if i < a.width * a.height then
            decide (((a.data i : ℤ) - (a.data i : ℤ)).natAbs > threshold)
          else false))) a.width a.height a a minArea
      , mask := morphOpen a.width a.height (morphClose a.width a.height (fun i =>
          if i < a.width * a.height then
            decide (((a.data i : ℤ) - (a.data i : ℤ)).natAbs > threshold)
          else false)) }) = Except.ok (findRegions (morphOpen a.width a.height
            (morphClose a.width a.height (fun i =>
          if i < a.width * a.height then
            decide (((a.data i : ℤ) - (a.data i : ℤ)).natAbs > threshold)
          else false))) a.width a.height a a minArea) from rfl]
  rw [findRegions_of_false hchain]

/-- Witness for C1 at a concrete buffer, threshold and minimum area. -/
theorem computeDiff_self_empty_witness :
    Except.map DiffComputation.regions (computeDiff (blankBuffer 3 2) (blankBuffer 3 2) 0 1) =
      Except.ok [] :=
  computeDiff_self_empty (blankBuffer 3 2) 0 1 (by norm_num)

/-! ### Helper lemmas: lattice algebra of frame-clipped dilation/erosion -/

lemma adj_refl (p : ℤ × ℤ) : adj p p := by
  simp [adj]

lemma adj_symm {p q : ℤ × ℤ} (h : adj p q) : adj q p := by
  obtain ⟨h1, h2⟩ := h
  exact ⟨by rw [abs_sub_comm]; exact h1, by rw [abs_sub_comm]; exact h2⟩

lemma dilSet_mono {w h : ℕ} {S T : Set (ℤ × ℤ)} (hst : S ⊆ T) :
    dilSet w h S ⊆ dilSet w h T := by
  rintro p ⟨hp, q, hqF, hadj, hq⟩
  exact ⟨hp, q, hqF, hadj, hst hq⟩

lemma eroSet_mono {w h : ℕ} {S T : Set (ℤ × ℤ)} (hst : S ⊆ T) :
    eroSet w h S ⊆ eroSet w h T := by
  rintro p ⟨hp, hball⟩
  exact ⟨hp, fun q hq => ⟨(hball q hq).1, hst (hball q hq).2⟩⟩

lemma openSet_anti {w h : ℕ} (S : Set (ℤ × ℤ)) :
    dilSet w h (eroSet w h S) ⊆ S := by
  rintro p ⟨hpF, q, _, hadj, _, hball⟩
  exact (hball p (adj_symm hadj)).2

lemma eroSq_far {w h : ℕ} {S : Set (ℤ × ℤ)} {p : ℤ × ℤ}
    (hp : p ∈ eroSet w h (eroSet w h S)) :
    ∀ q r, adj p q → adj q r → inFrame w h r := by
  intro q r hq hr
  obtain ⟨_, hball⟩ := hp
  obtain ⟨_, hqero⟩ := hball q hq
  exact (hqero.2 r hr).1

lemma stepToward_close (a b : ℤ) : |stepToward a b - b| ≤ 1 := by
  unfold stepToward
  split_ifs with h1 h2 <;> rw [abs_le] <;> omega

lemma stepToward_near (a b : ℤ) (hab : |a - b| ≤ 2) : |stepToward a b - a| ≤ 1 := by
  rw [abs_le] at hab
  unfold stepToward
  split_ifs with h1 h2 <;> rw [abs_le] <;> omega

lemma adj_dist2 {p q r : ℤ × ℤ} (h1 : adj p q) (h2 : adj q r) :
    |p.1 - r.1| ≤ 2 ∧ |p.2 - r.2| ≤ 2 := by
  obtain ⟨a1, a2⟩ := h1
  obtain ⟨b1, b2⟩ := h2
  rw [abs_le] at a1 a2 b1 b2 ⊢
  constructor <;> [skip; rw [abs_le]] <;> omega

lemma farCover {w h : ℕ} {S : Set (ℤ × ℤ)} {p : ℤ × ℤ}
    (hfar : ∀ q r, adj p q → adj q r → inFrame w h r) (hp : p ∈ S) :
    p ∈ eroSet w h (eroSet w h (dilSet w h (dilSet w h S))) := by
  have hpF : inFrame w h p := hfar p p (adj_refl p) (adj_refl p)
  refine ⟨hpF, fun q hq => ⟨hfar p q (adj_refl p) hq, ?_, fun r hr => ?_⟩⟩
  · exact hfar p q (adj_refl p) hq
  · have hrF : inFrame w h r := hfar q r hq hr
    refine ⟨hrF, ?_⟩
    set s : ℤ × ℤ := (stepToward p.1 r.1, stepToward p.2 r.2) with hs
    have hdist := adj_dist2 hq hr
    have hadj_rs : adj r s := by
      refine ⟨?_, ?_⟩ <;> rw [abs_sub_comm] <;> exact stepToward_close _ _
    have hadj_ps : adj p s := by
      refine ⟨?_, ?_⟩ <;> rw [abs_sub_comm]
      · exact stepToward_near p.1 r.1 hdist.1
      · exact stepToward_near p.2 r.2 hdist.2
    have hsF : inFrame w h s := hfar p s (adj_refl p) hadj_ps
    exact ⟨hrF, s, hsF, hadj_rs, hsF, p, hpF, adj_symm hadj_ps, hp⟩

lemma setChain_sub {w h : ℕ} (S : Set (ℤ × ℤ)) :
    dilSet w h (eroSet w h (eroSet w h (dilSet w h
      (dilSet w h (eroSet w h (eroSet w h (dilSet w h S))))))) ⊆
    dilSet w h (eroSet w h (eroSet w h (dilSet w h S))) := by
  have h1 : dilSet w h (eroSet w h (eroSet w h (dilSet w h S))) ⊆
      eroSet w h (dilSet w h S) := openSet_anti _
  have h2 : dilSet w h (dilSet w h (eroSet w h (eroSet w h (dilSet w h S)))) ⊆
      dilSet w h S := (dilSet_mono h1).trans (openSet_anti _)
  exact dilSet_mono (eroSet_mono (eroSet_mono h2))

lemma setChain_sup {w h : ℕ} (S : Set (ℤ × ℤ)) :
    dilSet w h (eroSet w h (eroSet w h (dilSet w h S))) ⊆
    dilSet w h (eroSet w h (eroSet w h (dilSet w h
      (dilSet w h (eroSet w h (eroSet w h (dilSet w h S))))))) := by
  have hcov : eroSet w h (eroSet w h (dilSet w h S)) ⊆
      eroSet w h (eroSet w h (dilSet w h
        (dilSet w h (eroSet w h (eroSet w h (dilSet w h S)))))) := by
    intro p hp
    exact farCover (eroSq_far hp) hp
  exact dilSet_mono hcov

lemma setChain_idem {w h : ℕ} (S : Set (ℤ × ℤ)) :
    dilSet w h (eroSet w h (eroSet w h (dilSet w h
      (dilSet w h (eroSet w h (eroSet w h (dilSet w h S))))))) =
    dilSet w h (eroSet w h (eroSet w h (dilSet w h S))) :=
  le_antisymm (setChain_sub S) (setChain_sup S)

/-! ### Helper lemmas: flat-index / coordinate bridge -/

lemma toIdx_lt {w h : ℕ} {x y : ℤ} (hpF : inFrame w h (x, y)) :
    y.toNat * w + x.toNat < w * h := by
  obtain ⟨h1, h2, h3, h4⟩ := hpF
  have hx : x.toNat < w := by omega
  have hy : y.toNat < h := by omega
  calc y.toNat * w + x.toNat < y.toNat * w + w := by omega
    _ = (y.toNat + 1) * w := by ring
    _ ≤ h * w := Nat.mul_le_mul_right w (by omega)
    _ = w * h := Nat.mul_comm h w

lemma toIdx_mod {w h : ℕ} {x y : ℤ} (hpF : inFrame w h (x, y)) :
    (y.toNat * w + x.toNat) % w = x.toNat := by
  obtain ⟨h1, h2, h3, h4⟩ := hpF
  have hx : x.toNat < w := by omega
  rw [Nat.mul_comm y.toNat w, Nat.mul_add_mod, Nat.mod_eq_of_lt hx]

lemma toIdx_div {w h : ℕ} {x y : ℤ} (hpF : inFrame w h (x, y)) :
    (y.toNat * w + x.toNat) / w = y.toNat := by
  obtain ⟨h1, h2, h3, h4⟩ := hpF
  have hw : 0 < w := by omega
  have hx : x.toNat < w := by omega
  rw [Nat.mul_comm y.toNat w, Nat.mul_add_div hw, Nat.div_eq_of_lt hx, Nat.add_zero]

lemma mem_offsets9 {o : ℤ × ℤ} : o ∈ offsets9 ↔ |o.1| ≤ 1 ∧ |o.2| ≤ 1 := by
  constructor
  · intro hmem
    fin_cases hmem <;> norm_num
  · obtain ⟨a, b⟩ := o
    rintro ⟨h1, h2⟩
    replace h1 : |a| ≤ 1 := h1
    replace h2 : |b| ≤ 1 := h2
    rw [abs_le] at h1 h2
    have ha : a = -1 ∨ a = 0 ∨ a = 1 := by omega
    have hb : b = -1 ∨ b = 0 ∨ b = 1 := by omega
    rcases ha with rfl | rfl | rfl <;> rcases hb with rfl | rfl | rfl <;> simp [offsets9]

lemma dilate_true_iff {w h : ℕ} (m : ℕ → Bool) {x y : ℤ} (hpF : inFrame w h (x, y)) :
    dilate w h m (y.toNat * w + x.toNat) = true ↔
      ∃ q, adj (x, y) q ∧ (inFrame w h q ∧ q ∈ maskSet w h m) := by
  have hx0 : (0 : ℤ) ≤ x := hpF.1
  have hy0 : (0 : ℤ) ≤ y := hpF.2.2.1
  unfold dilate
  rw [if_pos (toIdx_lt hpF), List.any_eq_true]
  simp only [toIdx_mod hpF, toIdx_div hpF, Int.toNat_of_nonneg hx0, Int.toNat_of_nonneg hy0]
  constructor
  · rintro ⟨o, ho, hio⟩
    split at hio
    · next hc =>
        obtain ⟨b1, b2⟩ := mem_offsets9.mp ho
        refine ⟨(x + o.1, y + o.2), ⟨?_, ?_⟩, ⟨hc.1, hc.2.1, hc.2.2.1, hc.2.2.2⟩,
          ⟨hc.1, hc.2.1, hc.2.2.1, hc.2.2.2⟩, hio⟩
        · have e1 : x - (x + o.1) = -o.1 := by ring
          rw [e1, abs_neg]; exact b1
        · have e2 : y - (y + o.2) = -o.2 := by ring
          rw [e2, abs_neg]; exact b2
    · exact absurd hio (by simp)
  · rintro ⟨⟨qx, qy⟩, ⟨a1, a2⟩, hqF, hqm⟩
    refine ⟨(qx - x, qy - y), mem_offsets9.mpr ⟨?_, ?_⟩, ?_⟩
    · simp only
      rw [abs_sub_comm] at a1
      exact a1
    · simp only
      rw [abs_sub_comm] at a2
      exact a2
    · simp only [show x + (qx - x) = qx from by ring, show y + (qy - y) = qy from by ring]
      obtain ⟨g1, g2, g3, g4⟩ := hqF
      rw [if_pos ⟨g1, g2, g3, g4⟩]
      exact hqm.2

lemma erode_true_iff {w h : ℕ} (m : ℕ → Bool) {x y : ℤ} (hpF : inFrame w h (x, y)) :
    erode w h m (y.toNat * w + x.toNat) = true ↔
      ∀ q, adj (x, y) q → inFrame w h q ∧ q ∈ maskSet w h m := by
  have hx0 : (0 : ℤ) ≤ x := hpF.1
  have hy0 : (0 : ℤ) ≤ y := hpF.2.2.1
  unfold erode
  rw [if_pos (toIdx_lt hpF), List.all_eq_true]
  simp only [toIdx_mod hpF, toIdx_div hpF, Int.toNat_of_nonneg hx0, Int.toNat_of_nonneg hy0]
  constructor
  · intro hall q hadj
    obtain ⟨qx, qy⟩ := q
    obtain ⟨a1, a2⟩ := hadj
    have ho : (qx - x, qy - y) ∈ offsets9 := by
      refine mem_offsets9.mpr ⟨?_, ?_⟩
      · simp only
        rw [abs_sub_comm] at a1
        exact a1
      · simp only
        rw [abs_sub_comm] at a2
        exact a2
    have hio := hall _ ho
    simp only [show x + (qx - x) = qx from by ring, show y + (qy - y) = qy from by ring] at hio
    split at hio
    · next hc => exact ⟨⟨hc.1, hc.2.1, hc.2.2.1, hc.2.2.2⟩, ⟨hc.1, hc.2.1, hc.2.2.1, hc.2.2.2⟩, hio⟩
    · exact absurd hio (by simp)
  · intro hq o ho
    obtain ⟨b1, b2⟩ := mem_offsets9.mp ho
    have hadj : adj (x, y) (x + o.1, y + o.2) := by
      constructor
      · have e1 : x - (x + o.1) = -o.1 := by ring
        simp only
        rw [e1, abs_neg]; exact b1
      · have e2 : y - (y + o.2) = -o.2 := by ring
        simp only
        rw [e2, abs_neg]; exact b2
    obtain ⟨hqF, hqm⟩ := hq _ hadj
    obtain ⟨g1, g2, g3, g4⟩ := hqF
    rw [if_pos ⟨g1, g2, g3, g4⟩]
    exact hqm.2

lemma maskSet_dilate (w h : ℕ) (m : ℕ → Bool) :
    maskSet w h (dilate w h m) = dilSet w h (maskSet w h m) := by
  ext ⟨x, y⟩
  constructor
  · rintro ⟨hpF, hval⟩
    obtain ⟨q, hadj, hqF, hqm⟩ := (dilate_true_iff m hpF).mp hval
    exact ⟨hpF, q, hqF, hadj, hqm⟩
  · rintro ⟨hpF, q, hqF, hadj, hqm⟩
    exact ⟨hpF, (dilate_true_iff m hpF).mpr ⟨q, hadj, hqF, hqm⟩⟩

lemma maskSet_erode (w h : ℕ) (m : ℕ → Bool) :
    maskSet w h (erode w h m) = eroSet w h (maskSet w h m) := by
  ext ⟨x, y⟩
  constructor
  · rintro ⟨hpF, hval⟩
    exact ⟨hpF, (erode_true_iff m hpF).mp hval⟩
  · rintro ⟨hpF, hball⟩
    exact ⟨hpF, (erode_true_iff m hpF).mpr hball⟩

lemma dilate_off {w h : ℕ} (m : ℕ → Bool) {idx : ℕ} (hidx : ¬ idx < w * h) :
    dilate w h m idx = false := by
  unfold dilate
  rw [if_neg hidx]

lemma recompose (w idx : ℕ) : idx / w * w + idx % w = idx := by
  rw [Nat.mul_comm, Nat.div_add_mod]

lemma mask_funext {w h : ℕ} {f g : ℕ → Bool}
    (hoff : ∀ idx, ¬ idx < w * h → f idx = false)
    (goff : ∀ idx, ¬ idx < w * h → g idx = false)
    (hset : maskSet w h f = maskSet w h g) : f = g := by
  funext idx
  by_cases hidx : idx < w * h
  · have hw : 0 < w := by
      rcases Nat.eq_zero_or_pos w with hw0 | hw0
      · rw [hw0] at hidx; omega
      · exact hw0
    have hpF : inFrame w h (((idx % w : ℕ) : ℤ), ((idx / w : ℕ) : ℤ)) := by
      refine ⟨Int.natCast_nonneg _, ?_, Int.natCast_nonneg _, ?_⟩
      · show ((idx % w : ℕ) : ℤ) < (w : ℤ)
        exact_mod_cast Nat.mod_lt idx hw
      · show ((idx / w : ℕ) : ℤ) < (h : ℤ)
        exact_mod_cast (Nat.div_lt_iff_lt_mul hw).mpr (by rw [Nat.mul_comm]; exact hidx)
    have hre : (((idx / w : ℕ) : ℤ)).toNat * w + (((idx % w : ℕ) : ℤ)).toNat = idx := by
      simp only [Int.toNat_natCast]
      exact recompose w idx
    have h1 := Set.ext_iff.mp hset (((idx % w : ℕ) : ℤ), ((idx / w : ℕ) : ℤ))
    simp only [maskSet, Set.mem_setOf_eq, hre] at h1
    have h2 : f idx = true ↔ g idx = true := by
      constructor
      · intro hf; exact (h1.mp ⟨hpF, hf⟩).2
      · intro hg; exact (h1.mpr ⟨hpF, hg⟩).2
    cases hf : f idx <;> cases hg : g idx
    · rfl
    · exact absurd (h2.mpr hg) (by rw [hf]; simp)
    · exact absurd (h2.mp hf) (by rw [hg]; simp)
    · rfl
  · rw [hoff idx hidx, goff idx hidx]

/-- C5: the morphological open-after-close filter of the diff pipeline is
idempotent: for every binary mask, `open(close(m))` equals
`open(close(open(close(m))))` over the clipped 3x3 neighbourhood exactly
as implemented. -/
theorem morphOpenClose_idempotent (w h : ℕ) (m : ℕ → Bool) :
    morphOpen w h (morphClose w h m) =
      morphOpen w h (morphClose w h (morphOpen w h (morphClose w h m))) := by
  have e1 : ∀ f : ℕ → Bool, maskSet w h (morphOpen w h (morphClose w h f)) =
      dilSet w h (eroSet w h (eroSet w h (dilSet w h (maskSet w h f)))) := by
    intro f
    unfold morphOpen morphClose
    rw [maskSet_dilate, maskSet_erode, maskSet_erode, maskSet_dilate]
  apply mask_funext
  · intro idx hidx
    unfold morphOpen
    exact dilate_off _ hidx
  · intro idx hidx
    unfold morphOpen
    exact dilate_off _ hidx
  · rw [e1 m, e1 (morphOpen w h (morphClose w h m)), e1 m]
    exact (setChain_idem (maskSet w h m)).symm

/-! ### Helper lemmas: flood-fill state invariants -/

lemma visitStep_visited_mono {w h : ℕ} {mask : ℕ → Bool} {cx cy : ℤ}
    (st : Finset ℕ × List ℕ) (o : ℤ × ℤ) :
    st.1 ⊆ (visitStep w h mask cx cy st o).1 := by
  simp only [visitStep]
  split_ifs
  · exact Finset.Subset.refl _
  · exact Finset.Subset.refl _
  · exact Finset.subset_insert _ _

lemma visitStep_stack_prop {w h : ℕ} {mask : ℕ → Bool} {cx cy : ℤ}
    (st : Finset ℕ × List ℕ) (o : ℤ × ℤ) :
    ∀ j ∈ (visitStep w h mask cx cy st o).2,
      j ∈ st.2 ∨ (mask j = true ∧ j ∉ st.1 ∧ j < w * h) := by
  simp only [visitStep]
  split_ifs with hb hg
  · exact fun j hj => Or.inl hj
  · exact fun j hj => Or.inl hj
  · intro j hj
    rcases List.mem_cons.mp hj with rfl | hj2
    · push_neg at hb
      simp only [not_or, Bool.not_eq_false] at hg
      have hF : inFrame w h (cx + o.1, cy + o.2) :=
        ⟨hb.1, hb.2.1, hb.2.2.1, hb.2.2.2⟩
      exact Or.inr ⟨hg.1, hg.2, toIdx_lt hF⟩
    · exact Or.inl hj2

lemma foldl_visitStep_visited_mono {w h : ℕ} {mask : ℕ → Bool} {cx cy : ℤ} :
    ∀ (os : List (ℤ × ℤ)) (st : Finset ℕ × List ℕ),
      st.1 ⊆ (os.foldl (visitStep w h mask cx cy) st).1 := by
  intro os
  induction os with
  | nil => intro st; exact Finset.Subset.refl _
  | cons o os ih =>
      intro st
      exact (visitStep_visited_mono st o).trans (ih _)

lemma foldl_visitStep_stack_prop {w h : ℕ} {mask : ℕ → Bool} {cx cy : ℤ} :
    ∀ (os : List (ℤ × ℤ)) (st : Finset ℕ × List ℕ),
      ∀ j ∈ (os.foldl (visitStep w h mask cx cy) st).2,
        j ∈ st.2 ∨ (mask j = true ∧ j ∉ st.1 ∧ j < w * h) := by
  intro os
  induction os with
  | nil => intro st j hj; exact Or.inl hj
  | cons o os ih =>
      intro st j hj
      rcases ih (visitStep w h mask cx cy st o) j hj with hj2 | ⟨hm, hv, hlt⟩
      · exact visitStep_stack_prop st o j hj2
      · exact Or.inr ⟨hm, fun hin => hv (visitStep_visited_mono st o hin), hlt⟩

lemma visitStep_stack_inv {w h : ℕ} {mask : ℕ → Bool} {cx cy : ℤ}
    (st : Finset ℕ × List ℕ) (o : ℤ × ℤ)
    (hnd : st.2.Nodup) (hsub : ∀ j ∈ st.2, j ∈ st.1) :
    (visitStep w h mask cx cy st o).2.Nodup ∧
      ∀ j ∈ (visitStep w h mask cx cy st o).2, j ∈ (visitStep w h mask cx cy st o).1 := by
  simp only [visitStep]
  split_ifs with hb hg
  · exact ⟨hnd, hsub⟩
  · exact ⟨hnd, hsub⟩
  · simp only [not_or, Bool.not_eq_false] at hg
    constructor
    · rw [List.nodup_cons]
      exact ⟨fun hmem => hg.2 (hsub _ hmem), hnd⟩
    · intro j hj
      rcases List.mem_cons.mp hj with rfl | hj2
      · exact Finset.mem_insert_self _ _
      · exact Finset.mem_insert_of_mem (hsub _ hj2)

lemma foldl_visitStep_inv {w h : ℕ} {mask : ℕ → Bool} {cx cy : ℤ} :
    ∀ (os : List (ℤ × ℤ)) (st : Finset ℕ × List ℕ),
      st.2.Nodup → (∀ j ∈ st.2, j ∈ st.1) →
      (os.foldl (visitStep w h mask cx cy) st).2.Nodup ∧
        ∀ j ∈ (os.foldl (visitStep w h mask cx cy) st).2,
          j ∈ (os.foldl (visitStep w h mask cx cy) st).1 := by
  intro os
  induction os with
  | nil => intro st hnd hsub; exact ⟨hnd, hsub⟩
  | cons o os ih =>
      intro st hnd hsub
      obtain ⟨hnd2, hsub2⟩ := visitStep_stack_inv st o hnd hsub
      exact ih _ hnd2 hsub2

lemma pushNeighbors_visited_mono {w h : ℕ} {mask : ℕ → Bool} (current : ℕ)
    (visited : Finset ℕ) (stack : List ℕ) :
    visited ⊆ (pushNeighbors w h mask current visited stack).1 :=
  foldl_visitStep_visited_mono floodOffsets (visited, stack)

lemma pushNeighbors_stack_prop {w h : ℕ} {mask : ℕ → Bool} (current : ℕ)
    (visited : Finset ℕ) (stack : List ℕ) :
    ∀ j ∈ (pushNeighbors w h mask current visited stack).2,
      j ∈ stack ∨ (mask j = true ∧ j ∉ visited ∧ j < w * h) :=
  foldl_visitStep_stack_prop floodOffsets (visited, stack)

lemma flood_visited_mono {w h : ℕ} {mask : ℕ → Bool} :
    ∀ (fuel : ℕ) (visited : Finset ℕ) (stack : List ℕ),
      visited ⊆ (flood w h mask fuel visited stack).2 := by
  intro fuel
  induction fuel with
  | zero =>
      intro visited stack
      cases stack with
      | nil => simp only [flood]; exact Finset.Subset.refl _
      | cons c r => simp only [flood]; exact Finset.Subset.refl _
  | succ fuel ih =>
      intro visited stack
      cases stack with
      | nil => simp only [flood]; exact Finset.Subset.refl _
      | cons current rest =>
          simp only [flood]
          exact (pushNeighbors_visited_mono current visited rest).trans (ih _ _)

lemma flood_pops_prop {w h : ℕ} {mask : ℕ → Bool} :
    ∀ (fuel : ℕ) (visited : Finset ℕ) (stack : List ℕ),
      ∀ j ∈ (flood w h mask fuel visited stack).1,
        j ∈ stack ∨ (mask j = true ∧ j ∉ visited ∧ j < w * h) := by
  intro fuel
  induction fuel with
  | zero =>
      intro visited stack j hj
      cases stack with
      | nil => simp only [flood] at hj; exact absurd hj (List.not_mem_nil j)
      | cons c r => simp only [flood] at hj; exact absurd hj (List.not_mem_nil j)
  | succ fuel ih =>
      intro visited stack j hj
      cases stack with
      | nil => simp only [flood] at hj; exact absurd hj (List.not_mem_nil j)
      | cons current rest =>
          simp only [flood] at hj
          rcases List.mem_cons.mp hj with rfl | hj2
          · exact Or.inl (List.mem_cons_self _ _)
          · rcases ih _ _ j hj2 with hst | ⟨hm, hv, hlt⟩
            · rcases pushNeighbors_stack_prop current visited rest j hst with hr | ⟨hm, hv, hlt⟩
              · exact Or.inl (List.mem_cons_of_mem _ hr)
              · exact Or.inr ⟨hm, hv, hlt⟩
            · exact Or.inr ⟨hm, fun hin =>
                hv (pushNeighbors_visited_mono current visited rest hin), hlt⟩

lemma flood_pops_nodup {w h : ℕ} {mask : ℕ → Bool} :
    ∀ (fuel : ℕ) (visited : Finset ℕ) (stack : List ℕ),
      stack.Nodup → (∀ j ∈ stack, j ∈ visited) →
      (flood w h mask fuel visited stack).1.Nodup := by
  intro fuel
  induction fuel with
  | zero =>
      intro visited stack _ _
      cases stack with
      | nil => simp only [flood]; exact List.nodup_nil
      | cons c r => simp only [flood]; exact List.nodup_nil
  | succ fuel ih =>
      intro visited stack hnd hsub
      cases stack with
      | nil => simp only [flood]; exact List.nodup_nil
      | cons current rest =>
          simp only [flood]
          have hrest_nd : rest.Nodup := (List.nodup_cons.mp hnd).2
          have hrest_sub : ∀ j ∈ rest, j ∈ visited :=
            fun j hj => hsub j (List.mem_cons_of_mem _ hj)
          obtain ⟨hnd2, hsub2⟩ :=
            foldl_visitStep_inv floodOffsets (visited, rest) hrest_nd hrest_sub
          rw [List.nodup_cons]
          constructor
          · intro hmem
            rcases flood_pops_prop fuel _ _ current hmem with hst | ⟨_, hnv, _⟩
            · rcases pushNeighbors_stack_prop current visited rest current hst with
                hr | ⟨_, hnv, _⟩
              · exact (List.nodup_cons.mp hnd).1 hr
              · exact hnv (hsub current (List.mem_cons_self _ _))
            · exact hnv (pushNeighbors_visited_mono current visited rest
                (hsub current (List.mem_cons_self _ _)))
          · exact ih _ _ hnd2 hsub2

/-! ### Helper lemmas: bounding-box folds and the area bound -/

lemma foldl_min_le_init (f : ℕ → ℕ) :
    ∀ (l : List ℕ) (a : ℕ), l.foldl (fun acc c => min acc (f c)) a ≤ a := by
  intro l
  induction l with
  | nil => intro a; exact Nat.le_refl a
  | cons x xs ih =>
      intro a
      exact (ih (min a (f x))).trans (Nat.min_le_left _ _)

lemma foldl_min_le_mem (f : ℕ → ℕ) :
    ∀ (l : List ℕ) (a : ℕ), ∀ c ∈ l, l.foldl (fun acc c => min acc (f c)) a ≤ f c := by
  intro l
  induction l with
  | nil => intro a c hc; exact absurd hc (List.not_mem_nil c)
  | cons x xs ih =>
      intro a c hc
      rcases List.mem_cons.mp hc with rfl | hc2
      · exact (foldl_min_le_init f xs (min a (f c))).trans (Nat.min_le_right _ _)
      · exact ih (min a (f x)) c hc2

lemma foldl_min_eq_init (f : ℕ → ℕ) :
    ∀ (l : List ℕ) (a : ℕ), (∀ c ∈ l, a ≤ f c) →
      l.foldl (fun acc c => min acc (f c)) a = a := by
  intro l
  induction l with
  | nil => intro a _; rfl
  | cons x xs ih =>
      intro a hall
      rw [List.foldl_cons, Nat.min_eq_left (hall x (List.mem_cons_self _ _))]
      exact ih a fun c hc => hall c (List.mem_cons_of_mem _ hc)

lemma le_foldl_max_init (f : ℕ → ℕ) :
    ∀ (l : List ℕ) (a : ℕ), a ≤ l.foldl (fun acc c => max acc (f c)) a := by
  intro l
  induction l with
  | nil => intro a; exact Nat.le_refl a
  | cons x xs ih =>
      intro a
      exact (Nat.le_max_left a (f x)).trans (ih (max a (f x)))

lemma le_foldl_max_mem (f : ℕ → ℕ) :
    ∀ (l : List ℕ) (a : ℕ), ∀ c ∈ l, f c ≤ l.foldl (fun acc c => max acc (f c)) a := by
  intro l
  induction l with
  | nil => intro a c hc; exact absurd hc (List.not_mem_nil c)
  | cons x xs ih =>
      intro a c hc
      rcases List.mem_cons.mp hc with rfl | hc2
      · exact (Nat.le_max_right a (f c)).trans (le_foldl_max_init f xs _)
      · exact ih (max a (f x)) c hc2

lemma coordPair_injective (w : ℕ) :
    Function.Injective fun c : ℕ => (c % w, c / w) := by
  intro a b hab
  have h1 : a % w = b % w := congrArg Prod.fst hab
  have h2 : a / w = b / w := congrArg Prod.snd hab
  calc a = a / w * w + a % w := (recompose w a).symm
    _ = b / w * w + b % w := by rw [h1, h2]
    _ = b := recompose w b

lemma regionOfPops_area_bound (w seedX seedY : ℕ) (pops : List ℕ)
    (oldP newP : PixelBuffer) (hnd : pops.Nodup) :
    (regionOfPops w seedX seedY pops oldP newP).area ≤
      ((regionOfPops w seedX seedY pops oldP newP).maxX -
        (regionOfPops w seedX seedY pops oldP newP).minX) *
      ((regionOfPops w seedX seedY pops oldP newP).maxY -
        (regionOfPops w seedX seedY pops oldP newP).minY) := by
  unfold regionOfPops
  simp only
  have hsubset : ∀ c ∈ pops,
      (c % w, c / w) ∈
        Finset.Icc (pops.foldl (fun acc c => min acc (c % w)) seedX)
            (pops.foldl (fun acc c => max acc (c % w)) seedX) ×ˢ
          Finset.Icc (pops.foldl (fun acc c => min acc (c / w)) seedY)
            (pops.foldl (fun acc c => max acc (c / w)) seedY) := by
    intro c hc
    rw [Finset.mem_product, Finset.mem_Icc, Finset.mem_Icc]
    exact ⟨⟨foldl_min_le_mem (fun c => c % w) pops seedX c hc,
        le_foldl_max_mem (fun c => c % w) pops seedX c hc⟩,
      ⟨foldl_min_le_mem (fun c => c / w) pops seedY c hc,
        le_foldl_max_mem (fun c => c / w) pops seedY c hc⟩⟩
  have hmapnd : (pops.map fun c => (c % w, c / w)).Nodup :=
    hnd.map (coordPair_injective w)
  have hsub2 : (pops.map fun c => (c % w, c / w)).toFinset ⊆
      Finset.Icc (pops.foldl (fun acc c => min acc (c % w)) seedX)
          (pops.foldl (fun acc c => max acc (c % w)) seedX) ×ˢ
        Finset.Icc (pops.foldl (fun acc c => min acc (c / w)) seedY)
          (pops.foldl (fun acc c => max acc (c / w)) seedY) := by
    intro p hp
    rw [List.mem_toFinset] at hp
    obtain ⟨c, hc, rfl⟩ := List.mem_map.mp hp
    exact hsubset c hc
  calc pops.length = (pops.map fun c => (c % w, c / w)).length :=
        (List.length_map _ _).symm
    _ = (pops.map fun c => (c % w, c / w)).toFinset.card :=
        (List.toFinset_card_of_nodup hmapnd).symm
    _ ≤ (Finset.Icc (pops.foldl (fun acc c => min acc (c % w)) seedX)
            (pops.foldl (fun acc c => max acc (c % w)) seedX) ×ˢ
          Finset.Icc (pops.foldl (fun acc c => min acc (c / w)) seedY)
            (pops.foldl (fun acc c => max acc (c / w)) seedY)).card :=
        Finset.card_le_card hsub2
    _ = (pops.foldl (fun acc c => max acc (c % w)) seedX + 1 -
          pops.foldl (fun acc c => min acc (c % w)) seedX) *
        (pops.foldl (fun acc c => max acc (c / w)) seedY + 1 -
          pops.foldl (fun acc c => min acc (c / w)) seedY) := by
        rw [Finset.card_product, Nat.card_Icc, Nat.card_Icc]

lemma seedStep_preserves_good {w h : ℕ} {mask : ℕ → Bool} {oldP newP : PixelBuffer}
    {minArea : ℚ} (st : Finset ℕ × List PixelRegion) (i : ℕ)
    (hst : ∀ r ∈ st.2, minArea ≤ (r.area : ℚ) ∧
      r.area ≤ (r.maxX - r.minX) * (r.maxY - r.minY)) :
    ∀ r ∈ (seedStep w h mask oldP newP minArea st i).2,
      minArea ≤ (r.area : ℚ) ∧ r.area ≤ (r.maxX - r.minX) * (r.maxY - r.minY) := by
  simp only [seedStep]
  split_ifs with hskip hguard
  · exact hst
  · intro r hr
    rcases List.mem_append.mp hr with hr2 | hr2
    · exact hst r hr2
    · rw [List.mem_singleton] at hr2
      subst hr2
      refine ⟨hguard, ?_⟩
      exact regionOfPops_area_bound _ _ _ _ _ _
        (flood_pops_nodup _ _ _ (List.nodup_singleton i) (by simp))
  · exact hst

lemma findRegions_all_good (mask : ℕ → Bool) (w h : ℕ)
    (oldP newP : PixelBuffer) (minArea : ℚ) :
    ∀ r ∈ findRegions mask w h oldP newP minArea,
      minArea ≤ (r.area : ℚ) ∧ r.area ≤ (r.maxX - r.minX) * (r.maxY - r.minY) := by
  unfold findRegions
  have hfold : ∀ (l : List ℕ) (st : Finset ℕ × List PixelRegion),
      (∀ r ∈ st.2, minArea ≤ (r.area : ℚ) ∧
        r.area ≤ (r.maxX - r.minX) * (r.maxY - r.minY)) →
      ∀ r ∈ (l.foldl (seedStep w h mask oldP newP minArea) st).2,
        minArea ≤ (r.area : ℚ) ∧ r.area ≤ (r.maxX - r.minX) * (r.maxY - r.minY) := by
    intro l
    induction l with
    | nil => intro st hst; exact hst
    | cons x xs ih =>
        intro st hst
        exact ih _ (seedStep_preserves_good st x hst)
  exact hfold _ (∅, []) (by simp)

/-- C9: every region returned by region extraction satisfies the
data-model invariant `area ≤ (maxX - minX) * (maxY - minY)` of its
half-open bounding box, together with `area ≥ minArea`. -/
theorem findRegions_region_invariant (mask : ℕ → Bool) (w h : ℕ)
    (oldP newP : PixelBuffer) (minArea : ℚ) :
    ∀ r ∈ findRegions mask w h oldP newP minArea,
      minArea ≤ (r.area : ℚ) ∧ r.area ≤ (r.maxX - r.minX) * (r.maxY - r.minY) :=
  findRegions_all_good mask w h oldP newP minArea

/-- Witness for C9: the one-pixel component of the sample mask satisfies
both invariants. -/
theorem findRegions_region_invariant_witness :
    (1 : ℚ) ≤ (sampleRegionA.area : ℚ) ∧
      sampleRegionA.area ≤
        (sampleRegionA.maxX - sampleRegionA.minX) *
          (sampleRegionA.maxY - sampleRegionA.minY) :=
  findRegions_region_invariant cmask 4 3 (blankBuffer 4 3) (blankBuffer 4 3) 1
    sampleRegionA (by decide)

/-! ### Helper lemmas: scan order of the region list -/

lemma seedIndices_eq_range (w h : ℕ) : seedIndices w h = List.range (w * h) := by
  unfold seedIndices
  induction h with
  | zero => simp
  | succ h ih =>
      rw [List.range_succ, List.flatMap_append, ih,
        show w * (h + 1) = w * h + w from by ring, List.range_add]
      simp only [List.flatMap_cons, List.flatMap_nil, List.append_nil]
      simp only [Nat.mul_comm h w]

lemma seedStep_skip {w h : ℕ} {mask : ℕ → Bool} {oldP newP : PixelBuffer}
    {minArea : ℚ} (st : Finset ℕ × List PixelRegion) (i : ℕ)
    (hskip : mask i = false ∨ i ∈ st.1) :
    seedStep w h mask oldP newP minArea st i = st := by
  unfold seedStep
  rw [if_pos hskip]

lemma seedStep_process {w h : ℕ} {mask : ℕ → Bool} {oldP newP : PixelBuffer}
    {minArea : ℚ} (st : Finset ℕ × List PixelRegion) (i : ℕ)
    (hskip : ¬ (mask i = false ∨ i ∈ st.1)) :
    seedStep w h mask oldP newP minArea st i =
      ((flood w h mask (w * h + 1) (insert i st.1) [i]).2,
        if ((regionOfPops w (i % w) (i / w)
              (flood w h mask (w * h + 1) (insert i st.1) [i]).1 oldP newP).area : ℚ) ≥
            minArea then
          st.2 ++ [regionOfPops w (i % w) (i / w)
            (flood w h mask (w * h + 1) (insert i st.1) [i]).1 oldP newP]
        else st.2) := by
  simp only [seedStep]
  rw [if_neg hskip]

lemma seedLoop_sorted {w h : ℕ} {mask : ℕ → Bool} {oldP newP : PixelBuffer}
    {minArea : ℚ} :
    ∀ (l : List ℕ) (st : Finset ℕ × List PixelRegion),
      (∀ p, p < w * h → mask p = true → p ∉ st.1 → p ∈ l) →
      l.Pairwise (· < ·) →
      (∀ r ∈ st.2, ∀ j ∈ l, r.minY ≤ j / w) →
      st.2.Pairwise (fun r s => r.minY ≤ s.minY) →
      (l.foldl (seedStep w h mask oldP newP minArea) st).2.Pairwise
        (fun r s => r.minY ≤ s.minY) := by
  intro l
  induction l with
  | nil => intro st _ _ _ h4; exact h4
  | cons i l2 ih =>
      intro st h1 h2 h3 h4
      rw [List.foldl_cons]
      by_cases hskip : mask i = false ∨ i ∈ st.1
      · rw [seedStep_skip st i hskip]
        apply ih st ?_ (List.Pairwise.of_cons h2) ?_ h4
        · intro p hp hm hv
          rcases List.mem_cons.mp (h1 p hp hm hv) with rfl | hmem
          · rcases hskip with hmf | hiv
            · exact absurd hm (by rw [hmf]; simp)
            · exact absurd hiv hv
          · exact hmem
        · intro r hr j hj
          exact h3 r hr j (List.mem_cons_of_mem _ hj)
      · rw [seedStep_process st i hskip]
        have hub : ∀ j ∈ l2, i < j := (List.pairwise_cons.mp h2).1
        have hge : ∀ j ∈ (flood w h mask (w * h + 1) (insert i st.1) [i]).1, i ≤ j := by
          intro j hj
          rcases flood_pops_prop _ _ _ j hj with hj2 | ⟨hm, hv, hlt⟩
          · rw [List.mem_singleton] at hj2
            exact hj2.ge
          · have hj_ne : j ≠ i := fun hji => hv (hji ▸ Finset.mem_insert_self i st.1)
            have hj_notin : j ∉ st.1 := fun hin => hv (Finset.mem_insert_of_mem hin)
            rcases List.mem_cons.mp (h1 j hlt hm hj_notin) with rfl | hmem
            · exact absurd rfl hj_ne
            · exact (hub j hmem).le
        have hminY : (regionOfPops w (i % w) (i / w)
            (flood w h mask (w * h + 1) (insert i st.1) [i]).1 oldP newP).minY = i / w := by
          unfold regionOfPops
          simp only
          exact foldl_min_eq_init _ _ _ fun c hc => Nat.div_le_div_right (hge c hc)
        apply ih _ ?_ (List.Pairwise.of_cons h2) ?_ ?_
        · intro p hp hm hv
          have hmono := @flood_visited_mono w h mask (w * h + 1) (insert i st.1) [i]
          have hv2 : p ∉ st.1 := fun hin => hv (hmono (Finset.mem_insert_of_mem hin))
          have hpi : p ≠ i := fun hpi => hv (hpi ▸ hmono (Finset.mem_insert_self _ _))
          rcases List.mem_cons.mp (h1 p hp hm hv2) with rfl | hmem
          · exact absurd rfl hpi
          · exact hmem
        · intro r hr j hj
          by_cases hguard : ((regionOfPops w (i % w) (i / w)
              (flood w h mask (w * h + 1) (insert i st.1) [i]).1 oldP newP).area : ℚ) ≥
              minArea
          · rw [if_pos hguard] at hr
            rcases List.mem_append.mp hr with hr2 | hr2
            · exact h3 r hr2 j (List.mem_cons_of_mem _ hj)
            · rw [List.mem_singleton] at hr2
              subst hr2
              rw [hminY]
              exact Nat.div_le_div_right (hub j hj).le
          · rw [if_neg hguard] at hr
            exact h3 r hr j (List.mem_cons_of_mem _ hj)
        · by_cases hguard : ((regionOfPops w (i % w) (i / w)
              (flood w h mask (w * h + 1) (insert i st.1) [i]).1 oldP newP).area : ℚ) ≥
              minArea
          · rw [if_pos hguard]
            rw [List.pairwise_append]
            refine ⟨h4, List.pairwise_singleton _ _, ?_⟩
            intro r hr s hs
            rw [List.mem_singleton] at hs
            subst hs
            rw [hminY]
            exact h3 r hr i (List.mem_cons_self _ _)
          · rw [if_neg hguard]
            exact h4

/-- C6 (amended): the region list is reported in nondecreasing order of
each region's `minY` (the row of the component's first scanned pixel),
and contains no component whose area is below `minArea`.  The full
ascending (minY, minX) lexicographic order of the original claim fails
(see the counterexample). -/
theorem findRegions_sorted_minY (mask : ℕ → Bool) (w h : ℕ)
    (oldP newP : PixelBuffer) (minArea : ℚ) :
    List.Pairwise (fun r s : PixelRegion => r.minY ≤ s.minY)
      (findRegions mask w h oldP newP minArea) ∧
    ∀ r ∈ findRegions mask w h oldP newP minArea, minArea ≤ (r.area : ℚ) := by
  constructor
  · unfold findRegions
    apply seedLoop_sorted
    · intro p hp _ _
      rw [seedIndices_eq_range]
      exact List.mem_range.mpr hp
    · rw [seedIndices_eq_range]
      exact List.pairwise_lt_range _
    · intro r hr
      exact absurd hr (List.not_mem_nil r)
    · exact List.Pairwise.nil
  · intro r hr
    exact (findRegions_all_good mask w h oldP newP minArea r hr).1

/-- Counterexample to C6 as stated: on the sample mask the extractor
reports the component with top-left corner (1, 0) before the component
with top-left corner (0, 0), so the region list is not sorted in
ascending row-major order of the bounding-box corners (minY, then minX). -/
theorem findRegions_not_lex_sorted :
    ¬ List.Pairwise (fun r s : PixelRegion =>
        r.minY < s.minY ∨ (r.minY = s.minY ∧ r.minX ≤ s.minX))
      (findRegions cmask 4 3 (blankBuffer 4 3) (blankBuffer 4 3) 1) := by
  decide

/-- Witness for C6 (amended) at the sample mask: the second reported
component clears the minimum-area filter. -/
theorem findRegions_sorted_minY_witness :
    (1 : ℚ) ≤ (sampleRegionB.area : ℚ) :=
  (findRegions_sorted_minY cmask 4 3 (blankBuffer 4 3) (blankBuffer 4 3) 1).2
    sampleRegionB (by decide)

/-! ### Helper lemmas: page rendering and overlay assembly -/

lemma renderPage_pixels_width (rasterize : PdfPage → ℚ → ℕ → ℕ → ℕ → ℕ)
    (doc : Option (List PdfPage)) (k : ℕ) (scale : ℚ) (tw th : ℕ) :
    (renderPage rasterize doc k scale tw th).pixels.width = tw := by
  cases doc with
  | none => rfl
  | some pages =>
      simp only [renderPage]
      split_ifs <;> rfl

lemma renderPage_pixels_height (rasterize : PdfPage → ℚ → ℕ → ℕ → ℕ → ℕ)
    (doc : Option (List PdfPage)) (k : ℕ) (scale : ℚ) (tw th : ℕ) :
    (renderPage rasterize doc k scale tw th).pixels.height = th := by
  cases doc with
  | none => rfl
  | some pages =>
      simp only [renderPage]
      split_ifs <;> rfl

lemma renderPage_missing (rasterize : PdfPage → ℚ → ℕ → ℕ → ℕ → ℕ)
    (pages : List PdfPage) (k : ℕ) (scale : ℚ) (tw th : ℕ)
    (hk : pages.length ≤ k) :
    (renderPage rasterize (some pages) k scale tw th).pixels = blankBuffer tw th := by
  simp only [renderPage]
  rw [if_pos (by omega : pages.length < k + 1)]

lemma computeDiff_ok_of_dims (oldP newP : PixelBuffer) (threshold minArea : ℚ)
    (hw : oldP.width = newP.width) (hh : oldP.height = newP.height) :
    ∃ d, computeDiff oldP newP threshold minArea = Except.ok d :=
  ⟨_, by unfold computeDiff; rw [if_neg (by simp [hw, hh])]⟩

lemma comparePage_ok (rasterize : PdfPage → ℚ → ℕ → ℕ → ℕ → ℕ) (config : CompareConfig)
    (pagesO pagesN : List PdfPage) (k : ℕ) :
    ∃ pr, comparePage rasterize config (some pagesO) (some pagesN) k = Except.ok pr ∧
      pr.pageIndex = k ∧
      (pagesO.length ≤ k → pr.oldPixels = blankBuffer pr.canvasWidthPx pr.canvasHeightPx) ∧
      (pagesN.length ≤ k → pr.newPixels = blankBuffer pr.canvasWidthPx pr.canvasHeightPx) := by
  simp only [comparePage]
  have hw : (renderPage rasterize (some pagesO) k (config.dpi / 72)
      (max 1 (max (renderPageDimension (some pagesO) k (config.dpi / 72)).1
        (renderPageDimension (some pagesN) k (config.dpi / 72)).1))
      (max 1 (max (renderPageDimension (some pagesO) k (config.dpi / 72)).2
        (renderPageDimension (some pagesN) k (config.dpi / 72)).2))).pixels.width =
      (renderPage rasterize (some pagesN) k (config.dpi / 72)
      (max 1 (max (renderPageDimension (some pagesO) k (config.dpi / 72)).1
        (renderPageDimension (some pagesN) k (config.dpi / 72)).1))
      (max 1 (max (renderPageDimension (some pagesO) k (config.dpi / 72)).2
        (renderPageDimension (some pagesN) k (config.dpi / 72)).2))).pixels.width := by
    rw [renderPage_pixels_width, renderPage_pixels_width]
  have hh : (renderPage rasterize (some pagesO) k (config.dpi / 72)
      (max 1 (max (renderPageDimension (some pagesO) k (config.dpi / 72)).1
        (renderPageDimension (some pagesN) k (config.dpi / 72)).1))
      (max 1 (max (renderPageDimension (some pagesO) k (config.dpi / 72)).2
        (renderPageDimension (some pagesN) k (config.dpi / 72)).2))).pixels.height =
      (renderPage rasterize (some pagesN) k (config.dpi / 72)
      (max 1 (max (renderPageDimension (some pagesO) k (config.dpi / 72)).1
        (renderPageDimension (some pagesN) k (config.dpi / 72)).1))
      (max 1 (max (renderPageDimension (some pagesO) k (config.dpi / 72)).2
        (renderPageDimension (some pagesN) k (config.dpi / 72)).2))).pixels.height := by
    rw [renderPage_pixels_height, renderPage_pixels_height]
  obtain ⟨d, hd⟩ := computeDiff_ok_of_dims _ _ config.diffThreshold config.minRegionArea hw hh
  rw [hd]
  simp only [Except.map]
  refine ⟨_, rfl, rfl, fun hk => ?_, fun hk => ?_⟩
  · exact renderPage_missing rasterize pagesO k (config.dpi / 72) _ _ hk
  · exact renderPage_missing rasterize pagesN k (config.dpi / 72) _ _ hk

lemma mapM_ok_of_all {α : Type} (f : ℕ → Except String α) (P : ℕ → α → Prop) :
    ∀ l : List ℕ, (∀ k ∈ l, ∃ x, f k = Except.ok x ∧ P k x) →
      ∃ out, l.mapM f = Except.ok out ∧ out.length = l.length ∧
        ∀ i x, out.get? i = some x → ∃ k, l.get? i = some k ∧ P k x := by
  intro l
  induction l with
  | nil =>
      intro _
      exact ⟨[], rfl, rfl, fun i x hx => by simp at hx⟩
  | cons a as ih =>
      intro hall
      obtain ⟨x, hx, hPx⟩ := hall a (List.mem_cons_self _ _)
      obtain ⟨out, hout, hlen, hP⟩ := ih fun k hk => hall k (List.mem_cons_of_mem _ hk)
      refine ⟨x :: out, ?_, by simp [hlen], ?_⟩
      · rw [List.mapM_cons, hx, hout]
        rfl
      · intro i y hy
        cases i with
        | zero =>
            rw [List.get?_cons_zero, Option.some.injEq] at hy
            subst hy
            exact ⟨a, rfl, hPx⟩
        | succ i =>
            rw [List.get?_cons_succ] at hy
            obtain ⟨k, hk, hPk⟩ := hP i y hy
            exact ⟨k, by rw [List.get?_cons_succ]; exact hk, hPk⟩

lemma flatMap_pair_length {α β : Type} (f g : α → β) :
    ∀ l : List α, (l.flatMap fun x => [f x, g x]).length = 2 * l.length := by
  intro l
  induction l with
  | nil => rfl
  | cons a as ih =>
      simp only [List.flatMap_cons, List.length_append, List.length_cons, ih]
      simp only [List.length_nil, List.length_cons]
      omega

lemma flatMap_pair_get_even {α β : Type} (f g : α → β) :
    ∀ (l : List α) (k : ℕ),
      (l.flatMap fun x => [f x, g x]).get? (2 * k) = (l.get? k).map f := by
  intro l
  induction l with
  | nil => intro k; rfl
  | cons a as ih =>
      intro k
      cases k with
      | zero => rfl
      | succ k =>
          rw [show 2 * (k + 1) = 2 * k + 1 + 1 from by ring]
          show (f a :: g a :: as.flatMap fun x => [f x, g x]).get? (2 * k + 1 + 1) = _
          rw [List.get?_cons_succ, List.get?_cons_succ, ih k, List.get?_cons_succ]

lemma flatMap_pair_get_odd {α β : Type} (f g : α → β) :
    ∀ (l : List α) (k : ℕ),
      (l.flatMap fun x => [f x, g x]).get? (2 * k + 1) = (l.get? k).map g := by
  intro l
  induction l with
  | nil => intro k; rfl
  | cons a as ih =>
      intro k
      cases k with
      | zero => rfl
      | succ k =>
          rw [show 2 * (k + 1) + 1 = 2 * k + 1 + 1 + 1 from by ring]
          show (f a :: g a :: as.flatMap fun x => [f x, g x]).get? (2 * k + 1 + 1 + 1) = _
          rw [List.get?_cons_succ, List.get?_cons_succ, ih k, List.get?_cons_succ]

lemma importPage_missing (source : List PdfPage) (index : ℕ) (fw fh : ℚ)
    (hk : source.length ≤ index) :
    importPage source index fw fh =
      { widthPt := fw, heightPt := fh, copiedFrom := none, drawn := [] } := by
  unfold importPage
  rw [if_neg (by omega)]

lemma buildOverlayPdf_of_ne (pages : List PageCompareResult)
    (oldDoc newDoc : List PdfPage) (hne : pages.length ≠ 0) :
    buildOverlayPdf pages oldDoc newDoc =
      pages.flatMap fun page =>
        [ drawRegionsOn (importPage oldDoc page.pageIndex page.pageWidthPt page.pageHeightPt)
            (page.regions.filter fun r => r.type ≠ DiffKind.added)
        , drawRegionsOn (importPage newDoc page.pageIndex page.pageWidthPt page.pageHeightPt)
            (page.regions.filter fun r => r.type ≠ DiffKind.removed) ] := by
  unfold buildOverlayPdf
  rw [if_neg hne]

/-- C8: with two loaded documents the pipeline processes
`max(oldPageCount, newPageCount)` page pairs and completes; for a page
index present in only one document the missing side is rendered as a
blank all-white buffer of the union canvas for diffing, and the overlay
document gets a blank page of the pair's dimensions in that slot; the
output document always carries two pages per compared pair. -/
theorem comparePdfs_padding (rasterize : PdfPage → ℚ → ℕ → ℕ → ℕ → ℕ)
    (config : CompareConfig) (pagesO pagesN : List PdfPage) :
    (comparePdfs rasterize config (some pagesO) (some pagesN)).status = "Completed" ∧
    (comparePdfs rasterize config (some pagesO) (some pagesN)).pages.length =
      max pagesO.length pagesN.length ∧
    (0 < max pagesO.length pagesN.length →
      ∃ out, (comparePdfs rasterize config (some pagesO) (some pagesN)).outputPdf =
          some out ∧
        out.length = 2 * max pagesO.length pagesN.length) ∧
    (∀ k, pagesO.length ≤ k → k < max pagesO.length pagesN.length →
      ∃ pr, (comparePdfs rasterize config (some pagesO) (some pagesN)).pages.get? k =
          some pr ∧
        pr.pageIndex = k ∧
        pr.oldPixels = blankBuffer pr.canvasWidthPx pr.canvasHeightPx ∧
        ∃ out, (comparePdfs rasterize config (some pagesO) (some pagesN)).outputPdf =
            some out ∧
          ∃ page, out.get? (2 * k) = some page ∧ page.copiedFrom = none ∧
            page.widthPt = pr.pageWidthPt ∧ page.heightPt = pr.pageHeightPt) ∧
    (∀ k, pagesN.length ≤ k → k < max pagesO.length pagesN.length →
      ∃ pr, (comparePdfs rasterize config (some pagesO) (some pagesN)).pages.get? k =
          some pr ∧
        pr.pageIndex = k ∧
        pr.newPixels = blankBuffer pr.canvasWidthPx pr.canvasHeightPx ∧
        ∃ out, (comparePdfs rasterize config (some pagesO) (some pagesN)).outputPdf =
            some out ∧
          ∃ page, out.get? (2 * k + 1) = some page ∧ page.copiedFrom = none ∧
            page.widthPt = pr.pageWidthPt ∧ page.heightPt = pr.pageHeightPt) := by
  obtain ⟨out0, hmapM, hlen0, hP⟩ := mapM_ok_of_all
    (comparePage rasterize config (some pagesO) (some pagesN))
    (fun k pr => pr.pageIndex = k ∧
      (pagesO.length ≤ k → pr.oldPixels = blankBuffer pr.canvasWidthPx pr.canvasHeightPx) ∧
      (pagesN.length ≤ k → pr.newPixels = blankBuffer pr.canvasWidthPx pr.canvasHeightPx))
    (List.range (max pagesO.length pagesN.length))
    (fun k _ => comparePage_ok rasterize config pagesO pagesN k)
  have hout0len : out0.length = max pagesO.length pagesN.length := by
    rw [hlen0, List.length_range]
  have hres : comparePdfs rasterize config (some pagesO) (some pagesN) =
      { pages := out0
      , outputPdf := some (buildOverlayPdf out0 pagesO pagesN)
      , diffCount := (out0.map fun p => p.regions.length).sum
      , status := "Completed" } := by
    simp only [comparePdfs, Option.elim]
    rw [hmapM]
    rfl
  refine ⟨by rw [hres], by rw [hres]; exact hout0len, ?_, ?_, ?_⟩
  · intro hn
    refine ⟨buildOverlayPdf out0 pagesO pagesN, by rw [hres], ?_⟩
    rw [buildOverlayPdf_of_ne _ _ _ (by omega), flatMap_pair_length]
    omega
  · intro k hkO hkn
    have hk2 : k < out0.length := by omega
    have hget : out0.get? k = some (out0.get ⟨k, hk2⟩) := List.get?_eq_get hk2
    obtain ⟨k2, hk3, hPk⟩ := hP k _ hget
    rw [List.get?_range hkn] at hk3
    obtain rfl : k = k2 := Option.some.inj hk3
    obtain ⟨hidx, hblankO, _⟩ := hPk
    refine ⟨out0.get ⟨k, hk2⟩, by rw [hres]; exact hget, hidx, hblankO hkO, ?_⟩
    refine ⟨buildOverlayPdf out0 pagesO pagesN, by rw [hres], ?_⟩
    rw [buildOverlayPdf_of_ne _ _ _ (by omega), flatMap_pair_get_even, hget,
      Option.map_some', hidx, importPage_missing pagesO k _ _ hkO]
    exact ⟨_, rfl, rfl, rfl, rfl⟩
  · intro k hkN hkn
    have hk2 : k < out0.length := by omega
    have hget : out0.get? k = some (out0.get ⟨k, hk2⟩) := List.get?_eq_get hk2
    obtain ⟨k2, hk3, hPk⟩ := hP k _ hget
    rw [List.get?_range hkn] at hk3
    obtain rfl : k = k2 := Option.some.inj hk3
    obtain ⟨hidx, _, hblankN⟩ := hPk
    refine ⟨out0.get ⟨k, hk2⟩, by rw [hres]; exact hget, hidx, hblankN hkN, ?_⟩
    refine ⟨buildOverlayPdf out0 pagesO pagesN, by rw [hres], ?_⟩
    rw [buildOverlayPdf_of_ne _ _ _ (by omega), flatMap_pair_get_odd, hget,
      Option.map_some', hidx, importPage_missing pagesN k _ _ hkN]
    exact ⟨_, rfl, rfl, rfl, rfl⟩

/-- Witness for C8: one old page against two new pages; the hypotheses at
the second pair (old side missing) are discharged concretely. -/
theorem comparePdfs_padding_witness :
    [wPage].length ≤ 1 ∧ 1 < max [wPage].length [wPage, wPage].length ∧
    (∃ pr, (comparePdfs wRaster wConfig (some [wPage]) (some [wPage, wPage])).pages.get? 1 =
        some pr ∧
      pr.pageIndex = 1 ∧
      pr.oldPixels = blankBuffer pr.canvasWidthPx pr.canvasHeightPx ∧
      ∃ out, (comparePdfs wRaster wConfig (some [wPage]) (some [wPage, wPage])).outputPdf =
          some out ∧
        ∃ page, out.get? (2 * 1) = some page ∧ page.copiedFrom = none ∧
          page.widthPt = pr.pageWidthPt ∧ page.heightPt = pr.pageHeightPt) :=
  ⟨by decide, by decide,
    (comparePdfs_padding wRaster wConfig [wPage] [wPage, wPage]).2.2.2.1 1
      (by decide) (by decide)⟩

/-! ### Faithfulness of the fuelled flood loop

The TS `while (stack.length)` loop terminates because every pushed index
is freshly marked visited; the measure `|frame unvisited| + |stack|`
strictly decreases.  The lemmas below show the measure is preserved by
the push phase and that any fuel at or above the measure computes the
same result, so the `w * h + 1` supplied by `seedStep` never runs out. -/

lemma visitStep_measure {w h : ℕ} {mask : ℕ → Bool} {cx cy : ℤ}
    (st : Finset ℕ × List ℕ) (o : ℤ × ℤ) :
    (Finset.range (w * h) \ (visitStep w h mask cx cy st o).1).card +
        (visitStep w h mask cx cy st o).2.length =
      (Finset.range (w * h) \ st.1).card + st.2.length := by
  simp only [visitStep]
  split_ifs with hb hg
  · rfl
  · rfl
  · push_neg at hb
    simp only [not_or, Bool.not_eq_false] at hg
    have hF : inFrame w h (cx + o.1, cy + o.2) :=
      ⟨hb.1, hb.2.1, hb.2.2.1, hb.2.2.2⟩
    have hmem : (cy + o.2).toNat * w + (cx + o.1).toNat ∈
        Finset.range (w * h) \ st.1 :=
      Finset.mem_sdiff.mpr ⟨Finset.mem_range.mpr (toIdx_lt hF), hg.2⟩
    have hpos : 1 ≤ (Finset.range (w * h) \ st.1).card :=
      Finset.card_pos.mpr ⟨_, hmem⟩
    simp only [Finset.sdiff_insert, List.length_cons,
      Finset.card_erase_of_mem hmem]
    omega

lemma foldl_visitStep_measure {w h : ℕ} {mask : ℕ → Bool} {cx cy : ℤ} :
    ∀ (os : List (ℤ × ℤ)) (st : Finset ℕ × List ℕ),
      (Finset.range (w * h) \ (os.foldl (visitStep w h mask cx cy) st).1).card +
          (os.foldl (visitStep w h mask cx cy) st).2.length =
        (Finset.range (w * h) \ st.1).card + st.2.length := by
  intro os
  induction os with
  | nil => intro st; rfl
  | cons o os ih =>
      intro st
      rw [List.foldl_cons, ih, visitStep_measure]

lemma flood_fuel_irrelevant {w h : ℕ} {mask : ℕ → Bool} :
    ∀ (fuel fuel2 : ℕ) (visited : Finset ℕ) (stack : List ℕ),
      (Finset.range (w * h) \ visited).card + stack.length ≤ fuel →
      (Finset.range (w * h) \ visited).card + stack.length ≤ fuel2 →
      flood w h mask fuel visited stack = flood w h mask fuel2 visited stack := by
  intro fuel
  induction fuel with
  | zero =>
      intro fuel2 visited stack hf hf2
      cases stack with
      | nil => cases fuel2 <;> rfl
      | cons c r => simp at hf
  | succ fuel ih =>
      intro fuel2 visited stack hf hf2
      cases stack with
      | nil => cases fuel2 <;> rfl
      | cons current rest =>
          cases fuel2 with
          | zero => simp at hf2
          | succ fuel2 =>
              simp only [flood]
              have hm : (Finset.range (w * h) \
                    (pushNeighbors w h mask current visited rest).1).card +
                    (pushNeighbors w h mask current visited rest).2.length =
                  (Finset.range (w * h) \ visited).card + rest.length :=
                foldl_visitStep_measure floodOffsets (visited, rest)
              have hrec := ih fuel2
                (pushNeighbors w h mask current visited rest).1
                (pushNeighbors w h mask current visited rest).2
                (by rw [hm]; simp only [List.length_cons] at hf; omega)
                (by rw [hm]; simp only [List.length_cons] at hf2; omega)
              rw [hrec]

